import Mathlib

/-!
# FileLister (cppcheck, `src/filelister.cpp`)

A shallow embedding of `FileLister::simplifyPath`, `FileLister::AcceptFile`,
`FileLister::SameFileName` and the two `FileLister::RecursiveAddFiles`
backends, followed by the properties established about them.

Conventions of the embedding:

* a `std::string` and a NUL-terminated `const char *` are both the list of
  their characters (`Str`); for a C string these are the characters before the
  terminating NUL, so the loop test `*originalPath` is the test for the end of
  the list;
* `std::vector<std::string>` is `List Str`; `erase(begin() + k)` is
  `List.eraseIdx _ k`, `push_back` appends at the end;
* operating-system primitives (`glob`, `PathIsDirectory`, `FindFirstFile`,
  `FindNextFile`) are parameters of the functions that call them.
-/

namespace FileLister

/-- A `std::string` / C string: the sequence of its characters. -/
abbrev Str := List Char

/-! ## `simplifyPath` -/

/-- First loop of `simplifyPath` (lines 43-60): runs over the characters of
`originalPath` with the local variables `subPath` and `pathParts`; the `[]`
case is the code after the loop (the final `push_back` of a non-empty
`subPath`). -/
def splitLoop : Str → Str → List Str → List Str
  | [], subPath, pathParts =>
      if subPath.length > 0 then pathParts ++ [subPath] else pathParts
  | c :: rest, subPath, pathParts =>
      if c = '/' ∨ c = '\\' then
        if subPath.length > 0 then
          splitLoop rest [] ((pathParts ++ [subPath]) ++ [[c]])
        else
          splitLoop rest subPath (pathParts ++ [[c]])
      else
        splitLoop rest (subPath ++ [c]) pathParts

/-- The segment sequence built by the split phase of `simplifyPath`. -/
def splitPath (originalPath : Str) : List Str := splitLoop originalPath [] []

/-- Body of the second loop of `simplifyPath` (lines 64-80) at index `i`, for
`i < pathParts.size()`: returns the value of `i` at the end of the body and the
new `pathParts`. -/
def loopBody (i : Nat) (pathParts : List Str) : Nat × List Str :=
  if pathParts[i]? = some ['.', '.'] ∧ i > 1 then
    (0, ((pathParts.eraseIdx i).eraseIdx (i - 1)).eraseIdx (i - 2))
  else if i > 0 ∧ pathParts[i]? = some ['.'] then
    (0, pathParts.eraseIdx i)
  else if pathParts[i]? = some ['/'] ∧ i > 0 ∧ pathParts[i - 1]? = some ['/'] then
    (0, pathParts.eraseIdx (i - 1))
  else
    (i, pathParts)

/-- Second loop of `simplifyPath` (lines 62-81), `for (i; i < pathParts.size(); ++i)`,
entered with the current `i` and `pathParts`.  The first argument bounds the
number of iterations; `simplifyLoop_fuel_irrelevant` shows that `loopFuel` is
always enough, so the bound is never what ends the loop. -/
def simplifyLoop : Nat → Nat → List Str → List Str
  | 0, _, pathParts => pathParts
  | fuel + 1, i, pathParts =>
      if i < pathParts.length then
        simplifyLoop fuel ((loopBody i pathParts).1 + 1) (loopBody i pathParts).2
      else
        pathParts

/-- A number of iterations that the second loop never exceeds when entered at
index `i`: every iteration either removes a segment or advances `i`. -/
def loopFuel (i : Nat) (pathParts : List Str) : Nat :=
  pathParts.length * pathParts.length + (pathParts.length - i)

/-- The rewrite loop entered at index `i` with enough iterations allowed. -/
def runLoop (i : Nat) (pathParts : List Str) : List Str :=
  simplifyLoop (loopFuel i pathParts) i pathParts

/-- Third loop of `simplifyPath` (lines 83-89): `oss << pathParts[i]` for every
`i`, then `oss.str()`. -/
def joinParts : List Str → Str
  | [] => []
  | part :: rest => part ++ joinParts rest

/-- The segment sequence left by the rewrite loop of `simplifyPath`. -/
def simplifiedParts (originalPath : Str) : List Str :=
  simplifyLoop (loopFuel 0 (splitPath originalPath)) 0 (splitPath originalPath)

/-- `FileLister::simplifyPath`. -/
def simplifyPath (originalPath : Str) : Str :=
  joinParts (simplifiedParts originalPath)

/-! ## `AcceptFile` -/

/-- `std::string::find_last_of(c)`: the index of the last occurrence of `c`,
`none` standing for `std::string::npos`. -/
def find_last_of : Str → Char → Option Nat
  | [], _ => none
  | x :: rest, c =>
      match find_last_of rest c with
      | some k => some (k + 1)
      | none => if x = c then some 0 else none

/-- `std::tolower` in the "C" locale: the upper-case ASCII letters are moved to
lower case, every other character is returned as it is. -/
def tolower (c : Char) : Char :=
  if 65 ≤ c.toNat ∧ c.toNat ≤ 90 then Char.ofNat (c.toNat + 32) else c

/-- The five extensions compared against in `AcceptFile`, in source order:
`.cpp`, `.cxx`, `.cc`, `.c`, `.c++`. -/
def acceptedExtensions : List Str :=
  [['.', 'c', 'p', 'p'], ['.', 'c', 'x', 'x'], ['.', 'c', 'c'], ['.', 'c'],
   ['.', 'c', '+', '+']]

/-- `FileLister::AcceptFile` (lines 94-113). -/
def AcceptFile (filename : Str) : Bool :=
  match find_last_of filename '.' with
  | none => false
  | some dotLocation =>
      let extension := (filename.drop dotLocation).map tolower
      if extension = ['.', 'c', 'p', 'p'] ∨
         extension = ['.', 'c', 'x', 'x'] ∨
         extension = ['.', 'c', 'c'] ∨
         extension = ['.', 'c'] ∨
         extension = ['.', 'c', '+', '+'] then
        true
      else
        false

/-! ## `SameFileName` -/

/-- The preprocessor symbols that `SameFileName` tests, as fixed by the build
target. -/
structure BuildConfig where
  /-- `__linux__` is defined. -/
  linux : Bool
  /-- `__GNUC__` is defined. -/
  gnuc : Bool
  /-- `__BORLANDC__` is defined. -/
  borlandc : Bool
  /-- `_MSC_VER` is defined. -/
  msc_ver : Bool

/-- `strcmp`: zero when the strings are equal, otherwise negative or positive
as the first characters that differ compare (as `unsigned char`); a string that
ends first meets its terminating NUL there, which is below every character. -/
def strcmp : Str → Str → Int
  | [], [] => 0
  | [], _ :: _ => -1
  | _ :: _, [] => 1
  | a :: as, b :: bs =>
      if a = b then strcmp as bs else if a.toNat < b.toNat then -1 else 1

/-- `strcasecmp` (named `stricmp` by Borland and `_stricmp` by Visual C++):
`strcmp` on the `tolower` images of the characters. -/
def strcasecmp : Str → Str → Int
  | [], [] => 0
  | [], _ :: _ => -1
  | _ :: _, [] => 1
  | a :: as, b :: bs =>
      if tolower a = tolower b then strcasecmp as bs
      else if (tolower a).toNat < (tolower b).toNat then -1 else 1

/-- `FileLister::SameFileName` (lines 264-278): the first `return` whose
`#ifdef` holds is the one executed; with none of the four symbols defined the
body is empty and no value is returned (`none`). -/
def SameFileName (cfg : BuildConfig) (fname1 fname2 : Str) : Option Bool :=
  if cfg.linux then some (strcmp fname1 fname2 == 0)
  else if cfg.gnuc then some (strcasecmp fname1 fname2 == 0)
  else if cfg.borlandc then some (strcasecmp fname1 fname2 == 0)
  else if cfg.msc_ver then some (strcasecmp fname1 fname2 == 0)
  else none

/-! ## `RecursiveAddFiles`, gcc / cygwin backend -/

namespace Posix

/-- The `for` loop of lines 130-149 over `glob_results.gl_pathv`, with
`filenames` as state.  `AddFiles` is the recursive call of line 147; it yields
`none` when the call does not come back within the depth allowed. -/
def globLoop (AddFiles : List Str → Str → Option (List Str)) (recursive : Bool) :
    List Str → List Str → Option (List Str)
  | [], filenames => some filenames
  | filename :: rest, filenames =>
      if filename = ['.'] ∨ filename = ['.', '.'] ∨ filename.length = 0 then
        globLoop AddFiles recursive rest filenames
      else if filename.getLast? ≠ some '/' then
        if !recursive || AcceptFile filename then
          globLoop AddFiles recursive rest (filenames ++ [filename])
        else
          globLoop AddFiles recursive rest filenames
      else if recursive then
        match AddFiles filenames filename with
        | none => none
        | some filenames' => globLoop AddFiles recursive rest filenames'
      else
        globLoop AddFiles recursive rest filenames

/-- The pattern handed to `glob` (lines 123-126). -/
def globPattern (path : Str) : Str :=
  if path.length > 0 ∧ path.getLast? = some '/' then path ++ ['*'] else path

/-- `FileLister::RecursiveAddFiles` for gcc (lines 121-151).  `glob pattern` is
`gl_pathv` after `glob(pattern, GLOB_MARK, 0, &glob_results)`.  The first
argument bounds the depth of the recursion, which the source does not bound;
`none` is a call that needs a deeper recursion than that. -/
def RecursiveAddFiles (glob : Str → List Str) :
    Nat → List Str → Str → Bool → Option (List Str)
  | 0, _, _, _ => none
  | depth + 1, filenames, path, recursive =>
      globLoop (fun fs p => RecursiveAddFiles glob depth fs p recursive) recursive
        (glob (globPattern path)) filenames

end Posix

/-! ## `RecursiveAddFiles`, Borland C++ / Visual C++ backend -/

namespace Windows

/-- The two fields of `WIN32_FIND_DATA` that the code reads. -/
structure WIN32_FIND_DATA where
  cFileName : Str
  dwFileAttributes : Nat

/-- The value of `FILE_ATTRIBUTE_DIRECTORY` in `<windows.h>`. -/
def FILE_ATTRIBUTE_DIRECTORY : Nat := 0x10

/-- The Windows primitives called by `RecursiveAddFiles`.  `FindFirstFile pattern`
is `none` for `INVALID_HANDLE_VALUE`; otherwise it is the entry stored by
`FindFirstFile` together with the entries stored by the following successful
calls of `FindNextFile`. -/
structure Api where
  PathIsDirectory : Str → Bool
  FindFirstFile : Str → Option (WIN32_FIND_DATA × List WIN32_FIND_DATA)

/-- `std::replace(cleanedPath.begin(), cleanedPath.end(), '/', '\\')` on a copy
of `path` (lines 189-190). -/
def cleanPath (path : Str) : Str :=
  path.map (fun c => if c = '/' then '\\' else c)

/-- Lines 187-220: the search string `oss` and the base directory `bdir`, in
this order.  `cleanedPath[cleanedPath.size()-1]` is read with `getLast?`; on an
empty `cleanedPath` (where the source reads out of bounds) the `default` label
is taken. -/
def searchStrings (api : Api) (path : Str) : Str × Str :=
  let cleanedPath := cleanPath path
  if api.PathIsDirectory cleanedPath then
    if cleanedPath.getLast? = some '\\' then
      (cleanedPath ++ ['*'], cleanedPath)
    else if cleanedPath.getLast? = some '*' then
      (cleanedPath, cleanedPath.take (cleanedPath.length - 1))
    else
      (cleanedPath ++ ['\\', '*'], cleanedPath ++ ['\\'])
  else
    match find_last_of path '\\' with
    | some pos => (cleanedPath, cleanedPath.take (pos + 1))
    | none => (cleanedPath, [])

/-- The `do ... while (FindNextFile(hFind, &ffd) != FALSE)` loop of lines
227-249 over the entries found, with `filenames` as state.  `AddFiles` is the
recursive call of line 246. -/
def findLoop (AddFiles : List Str → Str → Option (List Str)) (recursive : Bool)
    (bdir : Str) : List WIN32_FIND_DATA → List Str → Option (List Str)
  | [], filenames => some filenames
  | ffd :: rest, filenames =>
      if ffd.cFileName.head? = some '.' ∨ ffd.cFileName = [] then
        findLoop AddFiles recursive bdir rest filenames
      else if ffd.dwFileAttributes &&& FILE_ATTRIBUTE_DIRECTORY = 0 then
        if !recursive || AcceptFile ffd.cFileName then
          findLoop AddFiles recursive bdir rest (filenames ++ [bdir ++ ffd.cFileName])
        else
          findLoop AddFiles recursive bdir rest filenames
      else if recursive then
        match AddFiles filenames (bdir ++ ffd.cFileName) with
        | none => none
        | some filenames' => findLoop AddFiles recursive bdir rest filenames'
      else
        findLoop AddFiles recursive bdir rest filenames

/-- `FileLister::RecursiveAddFiles` for Borland C++ / Visual C++ (lines
182-256).  The first argument bounds the depth of the recursion, as in the gcc
backend. -/
def RecursiveAddFiles (api : Api) :
    Nat → List Str → Str → Bool → Option (List Str)
  | 0, _, _, _ => none
  | depth + 1, filenames, path, recursive =>
      match api.FindFirstFile (searchStrings api path).1 with
      | none => some filenames
      | some (ffd, more) =>
          findLoop (fun fs p => RecursiveAddFiles api depth fs p recursive) recursive
            (searchStrings api path).2 (ffd :: more) filenames

end Windows

/-! ## Directory trees seen through `glob` -/

/-- The content of a directory, in enumeration order: each entry is a regular
file or a directory with its own content. -/
inductive Forest where
  | nil : Forest
  | file (name : Str) (rest : Forest) : Forest
  | dir (name : Str) (children : Forest) (rest : Forest) : Forest

namespace Forest

/-- A name that begins with `.`: the pattern character `*` does not match it
(`glob` is called without `GLOB_PERIOD`). -/
def isHidden (name : Str) : Bool := decide (name.head? = some '.')

/-- The characters that are special in a `glob` pattern (called without
`GLOB_NOESCAPE`, `GLOB_BRACE` or `GLOB_TILDE`): `*`, `?`, `[` and the escape
character `\`. -/
def isGlobSpecial (c : Char) : Bool := c == '*' || c == '?' || c == '[' || c == '\\'

/-- The pathnames `glob` reports for the pattern `pre*` when the entries under
`pre` are those of the forest: the entries whose name does not begin with `.`,
in enumeration order, each with the prefix in front and - because of
`GLOB_MARK` - a trailing slash on directories. -/
def listing (pre : Str) : Forest → List Str
  | nil => []
  | file name rest =>
      if isHidden name then listing pre rest else (pre ++ name) :: listing pre rest
  | dir name _ rest =>
      if isHidden name then listing pre rest
      else (pre ++ name ++ ['/']) :: listing pre rest

/-- Entry names of a directory tree: not empty, without a slash, and different
from `.` and `..`. -/
def WellNamed : Forest → Prop
  | nil => True
  | file name rest =>
      (name ≠ [] ∧ '/' ∉ name ∧ name ≠ ['.'] ∧ name ≠ ['.', '.']) ∧ WellNamed rest
  | dir name children rest =>
      (name ≠ [] ∧ '/' ∉ name ∧ name ≠ ['.'] ∧ name ≠ ['.', '.']) ∧
        WellNamed children ∧ WellNamed rest

/-- What `glob(pattern, GLOB_MARK, 0, ...)` does on the directories of the
forest: for a directory whose pathname holds no pattern character, the pattern
`<directory>/*` expands to `listing` of its content.  Nothing is said about a
directory whose pathname holds a pattern character: pasted into a pattern, such
a name is not matched literally. -/
def GlobAgrees (glob : Str → List Str) (pre : Str) : Forest → Prop
  | nil => True
  | file _ rest => GlobAgrees glob pre rest
  | dir name children rest =>
      ((∀ c ∈ pre ++ name, isGlobSpecial c = false) →
          glob (pre ++ name ++ ['/'] ++ ['*']) = listing (pre ++ name ++ ['/']) children) ∧
        GlobAgrees glob (pre ++ name ++ ['/']) children ∧ GlobAgrees glob pre rest

/-- No directory of the forest has a pattern character in its name. -/
def PlainDirs : Forest → Prop
  | nil => True
  | file _ rest => PlainDirs rest
  | dir name children rest =>
      (∀ c ∈ name, isGlobSpecial c = false) ∧ PlainDirs children ∧ PlainDirs rest

/-- No entry of the forest has a name that begins with `.`. -/
def NoHidden : Forest → Prop
  | nil => True
  | file name rest => isHidden name = false ∧ NoHidden rest
  | dir name children rest => isHidden name = false ∧ NoHidden children ∧ NoHidden rest

/-- Pathnames of all regular files anywhere in the forest, depth first in
enumeration order. -/
def files (pre : Str) : Forest → List Str
  | nil => []
  | file name rest => (pre ++ name) :: files pre rest
  | dir name children rest => files (pre ++ name ++ ['/']) children ++ files pre rest

/-- Pathnames of all directories anywhere in the forest, as `glob` marks them. -/
def dirs (pre : Str) : Forest → List Str
  | nil => []
  | file _ rest => dirs pre rest
  | dir name children rest =>
      (pre ++ name ++ ['/']) :: (dirs (pre ++ name ++ ['/']) children ++ dirs pre rest)

/-- Pathnames of the regular files anywhere in the forest whose own name passes
`AcceptFile`, depth first in enumeration order. -/
def acceptedFiles (pre : Str) : Forest → List Str
  | nil => []
  | file name rest =>
      if AcceptFile name then (pre ++ name) :: acceptedFiles pre rest
      else acceptedFiles pre rest
  | dir name children rest =>
      acceptedFiles (pre ++ name ++ ['/']) children ++ acceptedFiles pre rest

/-- Pathnames of the regular files whose own name passes `AcceptFile` and that
are reached without going through a name that begins with `.` (their own name
included), depth first in enumeration order. -/
def visibleAcceptedFiles (pre : Str) : Forest → List Str
  | nil => []
  | file name rest =>
      if isHidden name then visibleAcceptedFiles pre rest
      else if AcceptFile name then (pre ++ name) :: visibleAcceptedFiles pre rest
      else visibleAcceptedFiles pre rest
  | dir name children rest =>
      if isHidden name then visibleAcceptedFiles pre rest
      else visibleAcceptedFiles (pre ++ name ++ ['/']) children ++ visibleAcceptedFiles pre rest

/-- Nesting depth of the directories of a forest. -/
def depth : Forest → Nat
  | nil => 0
  | file _ rest => depth rest
  | dir _ children rest => max (depth children + 1) (depth rest)

end Forest

/-! ## Entries kept by a non-recursive scan, and sample file systems -/

/-- An enumerated pathname of the gcc backend that names a regular file: not
`.`, not `..`, not empty, and without the trailing slash that `GLOB_MARK` puts
on directories. -/
def Posix.isFileEntry (filename : Str) : Bool :=
  decide (filename ≠ ['.'] ∧ filename ≠ ['.', '.'] ∧ filename ≠ [] ∧
    filename.getLast? ≠ some '/')

/-- An entry of the Windows backend that passes the test of line 229 and does
not carry the directory attribute. -/
def Windows.isKeptFile (ffd : Windows.WIN32_FIND_DATA) : Bool :=
  decide (ffd.cFileName.head? ≠ some '.' ∧ ffd.cFileName ≠ [] ∧
    ffd.dwFileAttributes &&& Windows.FILE_ATTRIBUTE_DIRECTORY = 0)

/-- A Windows file system in which the pattern `.hidden.txt` matches one
regular file of that name (attribute `FILE_ATTRIBUTE_ARCHIVE`) and nothing is a
directory. -/
def Windows.dotFileApi : Windows.Api where
  PathIsDirectory := fun _ => false
  FindFirstFile := fun pattern =>
    if pattern = ".hidden.txt".toList then some (⟨".hidden.txt".toList, 0x20⟩, []) else none

/-- The same file seen by `glob`: the pattern `.hidden.txt` expands to that one
pathname. -/
def Posix.dotFileGlob (pattern : Str) : List Str :=
  if pattern = ".hidden.txt".toList then [".hidden.txt".toList] else []

/-- The directory `src/` holding `a.cpp`, `a.h` and the directory `sub` with
`b.cc`. -/
def srcTree : Forest :=
  .file "a.cpp".toList (.file "a.h".toList (.dir "sub".toList (.file "b.cc".toList .nil) .nil))

/-- The expansions `glob` gives on that directory. -/
def srcGlob (pattern : Str) : List Str :=
  if pattern = "src/*".toList then
    ["src/a.cpp".toList, "src/a.h".toList, "src/sub/".toList]
  else if pattern = "src/sub/*".toList then
    ["src/sub/b.cc".toList]
  else
    []

/-- The content of a directory `hid/`: the regular files `.hidden.cpp` and
`v.cpp`. -/
def hidTree : Forest :=
  .file ".hidden.cpp".toList (.file "v.cpp".toList .nil)

/-- The expansions `glob` gives on that directory: `hid/*` does not match
`.hidden.cpp`. -/
def hidGlob (pattern : Str) : List Str :=
  if pattern = "hid/*".toList then ["hid/v.cpp".toList] else []

/-- The content of a directory `src/`: the directory `a[b]` holding `x.cpp`. -/
def bracketTree : Forest :=
  .dir "a[b]".toList (.file "x.cpp".toList .nil) .nil

/-- The expansions `glob` gives on that directory: `src/*` matches `a[b]`, and
the pattern `src/a[b]/*` asks for the content of a directory `src/ab`, which
does not exist. -/
def bracketGlob (pattern : Str) : List Str :=
  if pattern = "src/*".toList then ["src/a[b]/".toList] else []

/-- The directory `src\` seen through the Windows primitives: first `.` and
`..`, then the same three entries. -/
def srcApi : Windows.Api where
  PathIsDirectory := fun p => decide (p = "src\\".toList ∨ p = "src\\sub".toList)
  FindFirstFile := fun pattern =>
    if pattern = "src\\*".toList then
      some (⟨".".toList, 0x10⟩, [⟨"..".toList, 0x10⟩, ⟨"a.cpp".toList, 0x20⟩,
        ⟨"a.h".toList, 0x20⟩, ⟨"sub".toList, 0x10⟩])
    else if pattern = "src\\sub\\*".toList then
      some (⟨".".toList, 0x10⟩, [⟨"..".toList, 0x10⟩, ⟨"b.cc".toList, 0x20⟩])
    else
      none

/-! ## Predicates on segment sequences -/

/-- A separator segment: the one-character string `/` or `\`. -/
def IsSepSeg (s : Str) : Prop := s = ['/'] ∨ s = ['\\']

/-- A name segment: a non-empty string without `/` and `\`. -/
def IsNameSeg (s : Str) : Prop := s ≠ [] ∧ ∀ c ∈ s, c ≠ '/' ∧ c ≠ '\\'

/-- A plain name: a name segment other than `.` and `..`. -/
def IsPlainName (s : Str) : Prop := IsNameSeg s ∧ s ≠ ['.'] ∧ s ≠ ['.', '.']

instance (s : Str) : Decidable (IsSepSeg s) := by
  unfold IsSepSeg; infer_instance

instance (s : Str) : Decidable (IsNameSeg s) := by
  unfold IsNameSeg; infer_instance

instance (s : Str) : Decidable (IsPlainName s) := by
  unfold IsPlainName; infer_instance

/-- Shape of the segment sequences that occur in `simplifyPath`: every segment
is a separator or a name, and no name follows a name.  The flag tells whether
the segment in front of the sequence is a name. -/
def Segmented : Bool → List Str → Prop
  | _, [] => True
  | afterName, s :: rest =>
      (IsSepSeg s ∧ Segmented false rest) ∨
        (afterName = false ∧ IsNameSeg s ∧ Segmented true rest)

/-- None of the three tests of the rewrite loop succeeds at index `i`. -/
def Quiet (i : Nat) (pathParts : List Str) : Prop :=
  ¬ (pathParts[i]? = some ['.', '.'] ∧ i > 1) ∧
  ¬ (i > 0 ∧ pathParts[i]? = some ['.']) ∧
  ¬ (pathParts[i]? = some ['/'] ∧ i > 0 ∧ pathParts[i - 1]? = some ['/'])

/-- No test of the rewrite loop succeeds anywhere in the sequence. -/
def Stable (pathParts : List Str) : Prop := ∀ i, Quiet i pathParts

/-- No two neighbouring characters of `s` are both separators, for the given
notion of separator. -/
def NoDoubled (isSep : Char → Prop) (s : Str) : Prop :=
  List.Chain' (fun c d => ¬ (isSep c ∧ isSep d)) s

/-! ## More sample file systems -/

/-- A Windows file system in which `dir\file.cpp` is a regular file: the
pattern `dir\file.cpp` matches the one entry `file.cpp` (attribute
`FILE_ATTRIBUTE_ARCHIVE`) and `PathIsDirectory` is false for it. -/
def Windows.fileInDirApi : Windows.Api where
  PathIsDirectory := fun p => decide (p = "dir".toList ∨ p = "dir\\".toList)
  FindFirstFile := fun pattern =>
    if pattern = "dir\\file.cpp".toList then some (⟨"file.cpp".toList, 0x20⟩, []) else none

/-- A Windows file system in which the pattern `.hidden.cpp` matches one
regular file of that name and nothing is a directory. -/
def Windows.hiddenCppApi : Windows.Api where
  PathIsDirectory := fun _ => false
  FindFirstFile := fun pattern =>
    if pattern = ".hidden.cpp".toList then some (⟨".hidden.cpp".toList, 0x20⟩, []) else none

/-- The same file seen by `glob`: the pattern `.hidden.cpp` expands to that one
pathname. -/
def Posix.hiddenCppGlob (pattern : Str) : List Str :=
  if pattern = ".hidden.cpp".toList then [".hidden.cpp".toList] else []

/-! ## The split phase -/

theorem splitLoop_acc (cs sub : Str) (acc : List Str) :
    splitLoop cs sub acc = acc ++ splitLoop cs sub [] := by
  induction cs generalizing sub acc with
  | nil => simp only [splitLoop]; split <;> simp
  | cons c rest ih =>
    simp only [splitLoop]
    split
    · split
      · rw [ih [] ((acc ++ [sub]) ++ [[c]]), ih [] (([] ++ [sub]) ++ [[c]])]; simp
      · rw [ih sub (acc ++ [[c]]), ih sub ([] ++ [[c]])]; simp
    · exact ih _ _

theorem splitLoop_sep (c : Char) (rest : Str) (hc : c = '/' ∨ c = '\\') :
    splitLoop (c :: rest) [] [] = [c] :: splitLoop rest [] [] := by
  simp only [splitLoop, if_pos hc]
  rw [if_neg (by simp), splitLoop_acc]; simp

theorem splitLoop_sep_pending (c : Char) (rest sub : Str) (hc : c = '/' ∨ c = '\\')
    (hsub : sub ≠ []) :
    splitLoop (c :: rest) sub [] = sub :: [c] :: splitLoop rest [] [] := by
  simp only [splitLoop, if_pos hc]
  rw [if_pos (List.length_pos.mpr hsub), splitLoop_acc]; simp

theorem splitLoop_name (name rest sub : Str) (hname : ∀ c ∈ name, c ≠ '/' ∧ c ≠ '\\') :
    splitLoop (name ++ rest) sub [] = splitLoop rest (sub ++ name) [] := by
  induction name generalizing sub with
  | nil => simp
  | cons c cs ih =>
    have hc : ¬ (c = '/' ∨ c = '\\') := by
      have := hname c (by simp); tauto
    have step : splitLoop (c :: (cs ++ rest)) sub [] = splitLoop (cs ++ rest) (sub ++ [c]) [] := by
      simp only [splitLoop, if_neg hc]
    rw [List.cons_append, step, ih (sub ++ [c]) (fun d hd => hname d (by simp [hd]))]; simp

theorem Segmented.weaken {b : Bool} {l : List Str} (h : Segmented b l) :
    Segmented false l := by
  cases l with
  | nil => trivial
  | cons s rest =>
    rcases h with h | ⟨_, h2, h3⟩
    · exact Or.inl h
    · exact Or.inr ⟨rfl, h2, h3⟩

theorem IsSepSeg.not_name {s : Str} (h : IsSepSeg s) : ¬ IsNameSeg s := by
  rintro ⟨_, h2⟩
  rcases h with rfl | rfl
  · exact (h2 '/' (by simp)).1 rfl
  · exact (h2 '\\' (by simp)).2 rfl

/-- Splitting the concatenation of a well-shaped segment sequence gives the
sequence back, also when a name is still pending in `subPath`. -/
theorem splitLoop_joinParts (parts : List Str) :
    (Segmented false parts → splitLoop (joinParts parts) [] [] = parts) ∧
    (∀ sub : Str, sub ≠ [] → Segmented true parts →
      splitLoop (joinParts parts) sub [] = sub :: parts) := by
  induction parts with
  | nil =>
    refine ⟨fun _ => by simp [joinParts, splitLoop], fun sub hsub _ => ?_⟩
    simp [joinParts, splitLoop, List.length_pos.mpr hsub]
  | cons s rest ih =>
    constructor
    · rintro (⟨hs, hrest⟩ | ⟨_, hs, hrest⟩)
      · rcases hs with rfl | rfl
        · simp only [joinParts, List.singleton_append]
          rw [splitLoop_sep _ _ (Or.inl rfl), ih.1 hrest]
        · simp only [joinParts, List.singleton_append]
          rw [splitLoop_sep _ _ (Or.inr rfl), ih.1 hrest]
      · simp only [joinParts]
        rw [splitLoop_name _ _ _ hs.2, List.nil_append, ih.2 s hs.1 hrest]
    · rintro sub hsub (⟨hs, hrest⟩ | ⟨h, _, _⟩)
      · rcases hs with rfl | rfl
        · simp only [joinParts, List.singleton_append]
          rw [splitLoop_sep_pending _ _ _ (Or.inl rfl) hsub, ih.1 hrest]
        · simp only [joinParts, List.singleton_append]
          rw [splitLoop_sep_pending _ _ _ (Or.inr rfl) hsub, ih.1 hrest]
      · cases h

theorem splitPath_joinParts {parts : List Str} (h : Segmented false parts) :
    splitPath (joinParts parts) = parts :=
  (splitLoop_joinParts parts).1 h

/-- The split loop produces a well-shaped segment sequence; with a name pending
in `subPath` the sequence starts with a name. -/
theorem splitLoop_segmented (cs : Str) :
    Segmented false (splitLoop cs [] []) ∧
    (∀ sub : Str, sub ≠ [] → (∀ c ∈ sub, c ≠ '/' ∧ c ≠ '\\') →
      ∃ name tail, splitLoop cs sub [] = name :: tail ∧ IsNameSeg name ∧
        Segmented true tail) := by
  induction cs with
  | nil =>
    refine ⟨by simp [splitLoop, Segmented], fun sub hsub hns => ⟨sub, [], ?_, ⟨hsub, hns⟩, trivial⟩⟩
    simp [splitLoop, List.length_pos.mpr hsub]
  | cons c rest ih =>
    by_cases hc : c = '/' ∨ c = '\\'
    · constructor
      · rw [splitLoop_sep _ _ hc]
        exact Or.inl ⟨by rcases hc with rfl | rfl <;> simp [IsSepSeg], ih.1⟩
      · intro sub hsub hns
        refine ⟨sub, [c] :: splitLoop rest [] [], splitLoop_sep_pending _ _ _ hc hsub,
          ⟨hsub, hns⟩, Or.inl ⟨by rcases hc with rfl | rfl <;> simp [IsSepSeg], ih.1⟩⟩
    · have hc2 : c ≠ '/' ∧ c ≠ '\\' := by tauto
      have step : ∀ sub : Str, splitLoop (c :: rest) sub [] = splitLoop rest (sub ++ [c]) [] := by
        intro sub; simp only [splitLoop, if_neg hc]
      constructor
      · rw [step]
        obtain ⟨name, tail, h1, h2, h3⟩ := ih.2 ([] ++ [c]) (by simp) (by simpa using hc2)
        rw [h1]; exact Or.inr ⟨rfl, h2, h3⟩
      · intro sub hsub hns
        rw [step]
        exact ih.2 (sub ++ [c]) (by simp) (by
          intro d hd
          rcases List.mem_append.mp hd with hd | hd
          · exact hns d hd
          · simp at hd; subst hd; exact hc2)

theorem splitPath_segmented (p : Str) : Segmented false (splitPath p) :=
  (splitLoop_segmented p).1

/-! ## The rewrite loop -/

theorem loopBody_of_quiet {i : Nat} {parts : List Str} (h : Quiet i parts) :
    loopBody i parts = (i, parts) := by
  obtain ⟨h1, h2, h3⟩ := h
  simp only [loopBody, if_neg h1, if_neg h2, if_neg h3]

theorem loopBody_of_not_quiet {i : Nat} {parts : List Str} (hi : i < parts.length)
    (h : ¬ Quiet i parts) :
    (loopBody i parts).1 = 0 ∧ (loopBody i parts).2.length < parts.length := by
  unfold loopBody
  by_cases h1 : parts[i]? = some ['.', '.'] ∧ i > 1
  · rw [if_pos h1]
    refine ⟨rfl, ?_⟩
    have := List.length_eraseIdx_le ((parts.eraseIdx i).eraseIdx (i - 1)) (i - 2)
    have := List.length_eraseIdx_le (parts.eraseIdx i) (i - 1)
    have := List.length_eraseIdx_of_lt hi
    simp only at *
    omega
  · rw [if_neg h1]
    by_cases h2 : i > 0 ∧ parts[i]? = some ['.']
    · rw [if_pos h2]
      refine ⟨rfl, ?_⟩
      have := List.length_eraseIdx_of_lt hi
      simp only at *
      omega
    · rw [if_neg h2]
      by_cases h3 : parts[i]? = some ['/'] ∧ i > 0 ∧ parts[i - 1]? = some ['/']
      · rw [if_pos h3]
        refine ⟨rfl, ?_⟩
        have hlt : i - 1 < parts.length := by omega
        have := List.length_eraseIdx_of_lt hlt
        simp only at *
        omega
      · exact absurd ⟨h1, h2, h3⟩ h

/-- Every iteration of the rewrite loop lowers `loopFuel`. -/
theorem loopFuel_decreases {i : Nat} {parts : List Str} (hi : i < parts.length) :
    loopFuel ((loopBody i parts).1 + 1) (loopBody i parts).2 < loopFuel i parts := by
  by_cases h : Quiet i parts
  · rw [loopBody_of_quiet h]
    simp only [loopFuel]
    omega
  · obtain ⟨h1, h2⟩ := loopBody_of_not_quiet hi h
    rw [h1]
    simp only [loopFuel]
    generalize (loopBody i parts).2.length = m at h2
    generalize parts.length = n at hi h2
    have : m * m ≤ (n - 1) * (n - 1) := Nat.mul_le_mul (by omega) (by omega)
    have : (n - 1) * (n - 1) + (n - 1) = (n - 1) * n := by
      cases n with
      | zero => simp
      | succ k => simp [Nat.mul_succ]
    have : (n - 1) * n ≤ n * n := Nat.mul_le_mul (by omega) (le_refl n)
    omega

/-- Beyond `loopFuel` the iteration bound has no influence on the result of the
rewrite loop: the loop always ends because `i` reaches `pathParts.size()`. -/
theorem simplifyLoop_fuel_irrelevant (f1 f2 i : Nat) (parts : List Str)
    (h1 : loopFuel i parts ≤ f1) (h2 : loopFuel i parts ≤ f2) :
    simplifyLoop f1 i parts = simplifyLoop f2 i parts := by
  induction f1 generalizing f2 i parts with
  | zero =>
    have hlen : ¬ i < parts.length := by
      intro hi
      simp only [loopFuel] at h1
      omega
    cases f2 with
    | zero => rfl
    | succ f2 => simp only [simplifyLoop, if_neg hlen]
  | succ f1 ih =>
    by_cases hi : i < parts.length
    · have hdec := loopFuel_decreases hi
      cases f2 with
      | zero => omega
      | succ f2 =>
        simp only [simplifyLoop, if_pos hi]
        exact ih f2 _ _ (by omega) (by omega)
    · cases f2 with
      | zero => simp only [simplifyLoop, if_neg hi]
      | succ f2 => simp only [simplifyLoop, if_neg hi]

theorem runLoop_step {i : Nat} {parts : List Str} (hi : i < parts.length) :
    runLoop i parts = runLoop ((loopBody i parts).1 + 1) (loopBody i parts).2 := by
  have hdec := loopFuel_decreases hi
  unfold runLoop
  obtain ⟨n, hn⟩ : ∃ n, loopFuel i parts = n + 1 := ⟨loopFuel i parts - 1, by omega⟩
  rw [hn]
  simp only [simplifyLoop, if_pos hi]
  exact simplifyLoop_fuel_irrelevant _ _ _ _ (by omega) (le_refl _)

theorem runLoop_done {i : Nat} {parts : List Str} (hi : parts.length ≤ i) :
    runLoop i parts = parts := by
  unfold runLoop
  cases h : loopFuel i parts with
  | zero => rfl
  | succ n => simp only [simplifyLoop, if_neg (by omega : ¬ i < parts.length)]

theorem simplifiedParts_eq_runLoop (p : Str) :
    simplifiedParts p = runLoop 0 (splitPath p) := rfl

/-- A loop entered where nothing fires from `i` on leaves the sequence alone. -/
theorem simplifyLoop_of_quiet (fuel i : Nat) (parts : List Str)
    (h : ∀ j, i ≤ j → Quiet j parts) : simplifyLoop fuel i parts = parts := by
  induction fuel generalizing i with
  | zero => rfl
  | succ fuel ih =>
    simp only [simplifyLoop]
    split
    · rw [loopBody_of_quiet (h i (le_refl i))]
      exact ih (i + 1) (fun j hj => h j (by omega))
    · rfl

theorem quiet_zero (parts : List Str) : Quiet 0 parts := by
  simp [Quiet]

theorem quiet_of_length_le {i : Nat} {parts : List Str} (hi : parts.length ≤ i) :
    Quiet i parts := by
  have : parts[i]? = none := List.getElem?_eq_none hi
  simp [Quiet, this]

/-- The rewrite loop ends on a sequence in which no test succeeds at any index. -/
theorem simplifyLoop_stable (fuel i : Nat) (parts : List Str)
    (hfuel : loopFuel i parts ≤ fuel) (hquiet : ∀ j, j < i → Quiet j parts) :
    Stable (simplifyLoop fuel i parts) := by
  induction fuel generalizing i parts with
  | zero =>
    change Stable parts
    intro j
    have hlen : parts.length ≤ i := by
      simp only [loopFuel] at hfuel
      by_contra hcon
      omega
    by_cases hj : j < i
    · exact hquiet j hj
    · exact quiet_of_length_le (by omega)
  | succ fuel ih =>
    by_cases hi : i < parts.length
    · have hdec := loopFuel_decreases hi
      simp only [simplifyLoop, if_pos hi]
      apply ih _ _ (by omega)
      by_cases hq : Quiet i parts
      · rw [loopBody_of_quiet hq]
        intro j hj
        by_cases hji : j = i
        · subst hji; exact hq
        · exact hquiet j (by simp only at hj; omega)
      · rw [(loopBody_of_not_quiet hi hq).1]
        intro j hj
        have : j = 0 := by omega
        subst this
        exact quiet_zero _
    · simp only [simplifyLoop, if_neg hi]
      intro j
      by_cases hj : j < i
      · exact hquiet j hj
      · exact quiet_of_length_le (by omega)

theorem simplifiedParts_stable (p : Str) : Stable (simplifiedParts p) :=
  simplifyLoop_stable _ 0 _ (le_refl _) (fun _ hj => absurd hj (Nat.not_lt_zero _))

/-! ## The rewrite loop keeps the shape of the segment sequence -/

theorem Segmented.not_name_after {b : Bool} {l : List Str} (h : Segmented b l)
    {i : Nat} {a x : Str} (ha : l[i]? = some a) (hname : IsNameSeg a)
    (hx : l[i + 1]? = some x) : ¬ IsNameSeg x := by
  induction l generalizing b i with
  | nil => simp at ha
  | cons s rest ih =>
    cases i with
    | zero =>
      simp only [List.getElem?_cons_zero, Option.some.injEq] at ha
      subst ha
      rcases h with ⟨hs, _⟩ | ⟨_, _, hrest⟩
      · exact absurd hname hs.not_name
      · cases rest with
        | nil => simp at hx
        | cons y r =>
          simp only [zero_add, List.getElem?_cons_succ, List.getElem?_cons_zero,
            Option.some.injEq] at hx
          subst hx
          rcases hrest with ⟨hy, _⟩ | ⟨hf, _, _⟩
          · exact hy.not_name
          · cases hf
    | succ i =>
      simp only [List.getElem?_cons_succ] at ha hx
      rcases h with ⟨_, hrest⟩ | ⟨_, _, hrest⟩
      · exact ih hrest ha hx
      · exact ih hrest ha hx

/-- Erasing a segment that is not followed by a name keeps the shape. -/
theorem Segmented.eraseIdx {b : Bool} {l : List Str} (h : Segmented b l) (k : Nat)
    (hnext : ∀ x, l[k + 1]? = some x → ¬ IsNameSeg x) : Segmented b (l.eraseIdx k) := by
  induction l generalizing b k with
  | nil => simpa using h
  | cons s rest ih =>
    cases k with
    | zero =>
      simp only [List.eraseIdx_zero, List.tail_cons]
      cases rest with
      | nil => trivial
      | cons y r =>
        have hy : ¬ IsNameSeg y := hnext y (by simp)
        have hrest : Segmented false (y :: r) := by
          rcases h with ⟨_, hrest⟩ | ⟨_, _, hrest⟩
          · exact hrest
          · exact hrest.weaken
        rcases hrest with ⟨hy1, hr⟩ | ⟨_, hy1, _⟩
        · exact Or.inl ⟨hy1, hr⟩
        · exact absurd hy1 hy
    | succ k =>
      have hnext2 : ∀ x, rest[k + 1]? = some x → ¬ IsNameSeg x := by
        intro x hx
        exact hnext x (by simpa using hx)
      simp only [List.eraseIdx_cons_succ]
      rcases h with ⟨hs, hrest⟩ | ⟨hb, hs, hrest⟩
      · exact Or.inl ⟨hs, ih hrest k hnext2⟩
      · exact Or.inr ⟨hb, hs, ih hrest k hnext2⟩

theorem isNameSeg_dot : IsNameSeg ['.'] := by
  refine ⟨by simp, ?_⟩
  intro c hc
  simp only [List.mem_singleton] at hc
  subst hc
  decide

theorem isNameSeg_dotdot : IsNameSeg ['.', '.'] := by
  refine ⟨by simp, ?_⟩
  intro c hc
  simp only [List.mem_cons, List.mem_singleton, List.not_mem_nil, or_false, or_self] at hc
  subst hc
  decide

theorem loopBody_segmented {b : Bool} (i : Nat) {parts : List Str}
    (h : Segmented b parts) : Segmented b (loopBody i parts).2 := by
  unfold loopBody
  split
  · rename_i h1
    have hnext : ∀ x, parts[i + 1]? = some x → ¬ IsNameSeg x :=
      fun x hx => h.not_name_after h1.1 isNameSeg_dotdot hx
    have hi : 1 < i := h1.2
    have e1 : (parts.eraseIdx i)[i - 1 + 1]? = parts[i + 1]? := by
      rw [show i - 1 + 1 = i by omega]
      exact List.getElem?_eraseIdx_of_ge _ _ _ (le_refl i)
    have e2 : ((parts.eraseIdx i).eraseIdx (i - 1))[i - 2 + 1]? = parts[i + 1]? := by
      rw [show i - 2 + 1 = i - 1 by omega,
        List.getElem?_eraseIdx_of_ge _ _ _ (le_refl (i - 1)), e1]
    have s1 := h.eraseIdx i hnext
    have s2 := s1.eraseIdx (i - 1) (fun x hx => hnext x (e1 ▸ hx))
    exact s2.eraseIdx (i - 2) (fun x hx => hnext x (e2 ▸ hx))
  · split
    · rename_i h2
      exact h.eraseIdx i (fun x hx => h.not_name_after h2.2 isNameSeg_dot hx)
    · split
      · rename_i h3
        refine h.eraseIdx (i - 1) (fun x hx => ?_)
        rw [show i - 1 + 1 = i by omega, h3.1] at hx
        simp only [Option.some.injEq] at hx
        subst hx
        exact IsSepSeg.not_name (Or.inl rfl)
      · exact h

theorem simplifyLoop_segmented {b : Bool} (fuel i : Nat) {parts : List Str}
    (h : Segmented b parts) : Segmented b (simplifyLoop fuel i parts) := by
  induction fuel generalizing i parts with
  | zero => exact h
  | succ fuel ih =>
    simp only [simplifyLoop]
    split
    · exact ih _ (loopBody_segmented i h)
    · exact h

theorem simplifiedParts_segmented (p : Str) : Segmented false (simplifiedParts p) :=
  simplifyLoop_segmented _ 0 (splitPath_segmented p)

/-- C1. `simplifyPath` is idempotent: simplifying an already simplified path
returns it unchanged, for every path string. -/
theorem simplifyPath_idempotent (p : Str) :
    simplifyPath (simplifyPath p) = simplifyPath p := by
  have hsplit : splitPath (joinParts (simplifiedParts p)) = simplifiedParts p :=
    splitPath_joinParts (simplifiedParts_segmented p)
  have hstable : Stable (simplifiedParts p) := simplifiedParts_stable p
  show joinParts (simplifiedParts (joinParts (simplifiedParts p))) = joinParts (simplifiedParts p)
  congr 1
  unfold simplifiedParts at hsplit ⊢
  rw [hsplit]
  exact simplifyLoop_of_quiet _ 0 _ (fun j _ => hstable j)

/-! ## `simplifyPath` on paths built from plain names -/

theorem IsNameSeg.ne_slash {s : Str} (h : IsNameSeg s) : s ≠ ['/'] := by
  rintro rfl
  exact (h.2 '/' (by simp)).1 rfl

theorem IsNameSeg.ne_backslash {s : Str} (h : IsNameSeg s) : s ≠ ['\\'] := by
  rintro rfl
  exact (h.2 '\\' (by simp)).2 rfl

theorem Segmented.cons_name {s : Str} {rest : List Str} (hs : IsNameSeg s)
    (hrest : Segmented true rest) : Segmented false (s :: rest) :=
  Or.inr ⟨rfl, hs, hrest⟩

theorem Segmented.cons_slash {b : Bool} {rest : List Str} (hrest : Segmented false rest) :
    Segmented b (['/'] :: rest) :=
  Or.inl ⟨Or.inl rfl, hrest⟩

theorem Segmented.cons_backslash {b : Bool} {rest : List Str}
    (hrest : Segmented false rest) : Segmented b (['\\'] :: rest) :=
  Or.inl ⟨Or.inr rfl, hrest⟩

theorem Segmented.nil {b : Bool} : Segmented b [] := trivial

/-- C2. A parent reference inside a path is resolved: for plain names `a`, `b`,
`c` the path `a/b/../c` is simplified to `a/c`. -/
theorem simplifyPath_parent_reference (a b c : Str) (ha : IsPlainName a)
    (hb : IsPlainName b) (hc : IsPlainName c) :
    simplifyPath (a ++ ['/'] ++ b ++ ['/', '.', '.', '/'] ++ c) = a ++ ['/'] ++ c := by
  have hjoin : a ++ ['/'] ++ b ++ ['/', '.', '.', '/'] ++ c
      = joinParts [a, ['/'], b, ['/'], ['.', '.'], ['/'], c] := by
    simp [joinParts]
  have hseg : Segmented false [a, ['/'], b, ['/'], ['.', '.'], ['/'], c] :=
    .cons_name ha.1 (.cons_slash (.cons_name hb.1 (.cons_slash
      (.cons_name isNameSeg_dotdot (.cons_slash (.cons_name hc.1 .nil))))))
  have a1 := ha.1.ne_slash
  have a2 := ha.2.1
  have a3 := ha.2.2
  have b1 := hb.1.ne_slash
  have b2 := hb.2.1
  have b3 := hb.2.2
  have c1 := hc.1.ne_slash
  have c2 := hc.2.1
  have c3 := hc.2.2
  rw [simplifyPath, simplifiedParts_eq_runLoop, hjoin, splitPath_joinParts hseg]
  iterate 9 (rw [runLoop_step (by simp)]; simp [loopBody, a1, a2, a3, b1, b2, b3, c1, c2, c3])
  rw [runLoop_done (by simp)]
  simp [joinParts]

theorem simplifyPath_parent_reference_witness :
    simplifyPath "a/b/../c".toList = "a/c".toList :=
  simplifyPath_parent_reference ['a'] ['b'] ['c'] (by decide) (by decide) (by decide)

/-- A single leading parent reference in front of a plain name is left as it
is: `../a` is simplified to `../a`. -/
theorem simplifyPath_one_leading_parent (a : Str) (ha : IsPlainName a) :
    simplifyPath (['.', '.', '/'] ++ a) = ['.', '.', '/'] ++ a := by
  have hjoin : ['.', '.', '/'] ++ a = joinParts [['.', '.'], ['/'], a] := by
    simp [joinParts]
  have hseg : Segmented false [['.', '.'], ['/'], a] :=
    .cons_name isNameSeg_dotdot (.cons_slash (.cons_name ha.1 .nil))
  have a1 := ha.1.ne_slash
  have a2 := ha.2.1
  have a3 := ha.2.2
  rw [simplifyPath, simplifiedParts_eq_runLoop, hjoin, splitPath_joinParts hseg]
  iterate 3 (rw [runLoop_step (by simp)]; simp [loopBody, a1, a2, a3])
  rw [runLoop_done (by simp)]

/-- C3. With two leading parent references the code does not return its
input: `../../a` is simplified to `/a`, the second `..` (at index 2) being
erased together with the first one. -/
theorem simplifyPath_two_leading_parents :
    simplifyPath "../../a".toList = "/a".toList ∧
    simplifyPath "../../a".toList ≠ "../../a".toList := by
  decide

/-- C4. Between two plain names a current-directory marker and a doubled
forward slash are removed: `a/./b` and `a//b` are both simplified to `a/b`. -/
theorem simplifyPath_dot_and_double_slash (a b : Str) (ha : IsPlainName a)
    (hb : IsPlainName b) :
    simplifyPath (a ++ ['/', '.', '/'] ++ b) = a ++ ['/'] ++ b ∧
    simplifyPath (a ++ ['/', '/'] ++ b) = a ++ ['/'] ++ b := by
  have a1 := ha.1.ne_slash
  have a2 := ha.2.1
  have a3 := ha.2.2
  have b1 := hb.1.ne_slash
  have b2 := hb.2.1
  have b3 := hb.2.2
  constructor
  · have hjoin : a ++ ['/', '.', '/'] ++ b = joinParts [a, ['/'], ['.'], ['/'], b] := by
      simp [joinParts]
    have hseg : Segmented false [a, ['/'], ['.'], ['/'], b] :=
      .cons_name ha.1 (.cons_slash (.cons_name isNameSeg_dot (.cons_slash
        (.cons_name hb.1 .nil))))
    rw [simplifyPath, simplifiedParts_eq_runLoop, hjoin, splitPath_joinParts hseg]
    iterate 7 (rw [runLoop_step (by simp)]; simp [loopBody, a1, a2, a3, b1, b2, b3])
    rw [runLoop_done (by simp)]
    simp [joinParts]
  · have hjoin : a ++ ['/', '/'] ++ b = joinParts [a, ['/'], ['/'], b] := by
      simp [joinParts]
    have hseg : Segmented false [a, ['/'], ['/'], b] :=
      .cons_name ha.1 (.cons_slash (.cons_slash (.cons_name hb.1 .nil)))
    rw [simplifyPath, simplifiedParts_eq_runLoop, hjoin, splitPath_joinParts hseg]
    iterate 5 (rw [runLoop_step (by simp)]; simp [loopBody, a1, a2, a3, b1, b2, b3])
    rw [runLoop_done (by simp)]
    simp [joinParts]

theorem simplifyPath_dot_and_double_slash_witness :
    simplifyPath "a/./b".toList = "a/b".toList ∧
    simplifyPath "a//b".toList = "a/b".toList :=
  simplifyPath_dot_and_double_slash ['a'] ['b'] (by decide) (by decide)

/-! ## `AcceptFile` -/

theorem find_last_of_eq_none {s : Str} {c : Char} (h : c ∉ s) : find_last_of s c = none := by
  induction s with
  | nil => rfl
  | cons x rest ih =>
    have hx : ¬ x = c := fun e => h (by simp [e])
    have hrest : c ∉ rest := fun e => h (by simp [e])
    simp only [find_last_of, ih hrest, if_neg hx]

/-- `find_last_of` returns the position of the last occurrence. -/
theorem find_last_of_append (pre suf : Str) (c : Char) (h : c ∉ suf) :
    find_last_of (pre ++ c :: suf) c = some pre.length := by
  induction pre with
  | nil => simp only [List.nil_append, find_last_of, find_last_of_eq_none h, if_pos, List.length_nil]
  | cons x pre ih =>
    show (match find_last_of (pre ++ c :: suf) c with
      | some k => some (k + 1)
      | none => if x = c then some 0 else none) = some (pre.length + 1)
    rw [ih]

theorem exists_last_dot {s : Str} (hdot : '.' ∈ s) :
    ∃ pre suf, s = pre ++ '.' :: suf ∧ '.' ∉ suf := by
  induction s with
  | nil => simp at hdot
  | cons x rest ih =>
    by_cases hrest : '.' ∈ rest
    · obtain ⟨pre, suf, h1, h2⟩ := ih hrest
      exact ⟨x :: pre, suf, by simp [h1], h2⟩
    · have hx : x = '.' := by
        rcases List.mem_cons.mp hdot with h | h
        · exact h.symm
        · exact absurd h hrest
      exact ⟨[], rest, by simp [hx], hrest⟩

theorem AcceptFile_of_no_dot {filename : Str} (h : '.' ∉ filename) :
    AcceptFile filename = false := by
  simp only [AcceptFile, find_last_of_eq_none h]

theorem AcceptFile_of_last_dot (pre suf : Str) (h : '.' ∉ suf) :
    AcceptFile (pre ++ '.' :: suf) = true ↔
      ('.' :: suf).map tolower ∈ acceptedExtensions := by
  simp only [AcceptFile, find_last_of_append pre suf '.' h, List.drop_left, acceptedExtensions]
  simp

theorem tolower_eq_dot {c : Char} : tolower c = '.' ↔ c = '.' := by
  unfold tolower
  split
  · rename_i h
    have hc : c = Char.ofNat c.toNat := (Char.ofNat_toNat c).symm
    generalize c.toNat = n at h hc
    subst hc
    obtain ⟨h1, h2⟩ := h
    interval_cases n <;> decide
  · rfl

theorem dot_mem_map_tolower {s : Str} : '.' ∈ s.map tolower ↔ '.' ∈ s := by
  simp only [List.mem_map]
  constructor
  · rintro ⟨c, hc, h⟩
    rw [tolower_eq_dot] at h
    exact h ▸ hc
  · intro h
    exact ⟨'.', h, tolower_eq_dot.mpr rfl⟩

theorem acceptedExtensions_shape {e : Str} (h : e ∈ acceptedExtensions) :
    ∃ e', e = '.' :: e' ∧ '.' ∉ e' := by
  simp only [acceptedExtensions, List.mem_cons, List.mem_singleton, List.not_mem_nil,
    or_false] at h
  rcases h with rfl | rfl | rfl | rfl | rfl
  · exact ⟨_, rfl, by decide⟩
  · exact ⟨_, rfl, by decide⟩
  · exact ⟨_, rfl, by decide⟩
  · exact ⟨_, rfl, by decide⟩
  · exact ⟨_, rfl, by decide⟩

/-- C5. `AcceptFile` follows the extension rule: a filename without `.` is
rejected, and a filename whose last `.` is followed by `suf` is accepted
exactly when `.suf`, lower-cased, is one of `.cpp`, `.cxx`, `.cc`, `.c`,
`.c++`. -/
theorem AcceptFile_extension_rule (filename : Str) :
    ('.' ∉ filename → AcceptFile filename = false) ∧
    (∀ pre suf : Str, filename = pre ++ '.' :: suf → '.' ∉ suf →
      (AcceptFile filename = true ↔ ('.' :: suf).map tolower ∈ acceptedExtensions)) := by
  refine ⟨AcceptFile_of_no_dot, ?_⟩
  rintro pre suf rfl hsuf
  exact AcceptFile_of_last_dot pre suf hsuf

theorem AcceptFile_extension_rule_witness :
    AcceptFile "noext".toList = false ∧ AcceptFile "".toList = false ∧
    (AcceptFile "x.h".toList = true ↔ ".h".toList.map tolower ∈ acceptedExtensions) ∧
    AcceptFile "x.h".toList = false :=
  ⟨(AcceptFile_extension_rule "noext".toList).1 (by decide),
   (AcceptFile_extension_rule "".toList).1 (by decide),
   (AcceptFile_extension_rule "x.h".toList).2 ['x'] ['h'] rfl (by decide),
   by
    have h := (AcceptFile_extension_rule "x.h".toList).2 ['x'] ['h'] rfl (by decide)
    cases hx : AcceptFile "x.h".toList with
    | false => rfl
    | true => exact absurd (h.mp hx) (by decide)⟩

/-- C6. `AcceptFile` depends only on the case-folded ending of the name: a
filename is accepted exactly when its lower-cased form ends with one of
`.cpp`, `.cxx`, `.cc`, `.c`, `.c++`. -/
theorem AcceptFile_iff_suffix (filename : Str) :
    AcceptFile filename = true ↔
      ∃ e ∈ acceptedExtensions, e <:+ filename.map tolower := by
  constructor
  · intro h
    by_cases hdot : '.' ∈ filename
    · obtain ⟨pre, suf, hsplit, hsuf⟩ := exists_last_dot hdot
      subst hsplit
      refine ⟨_, (AcceptFile_of_last_dot pre suf hsuf).mp h, ?_⟩
      rw [List.map_append]
      exact List.suffix_append _ _
    · rw [AcceptFile_of_no_dot hdot] at h
      cases h
  · rintro ⟨e, he, t, ht⟩
    obtain ⟨e', rfl, he'⟩ := acceptedExtensions_shape he
    obtain ⟨f1, f2, hf, -, h2⟩ := List.map_eq_append_iff.mp ht.symm
    cases f2 with
    | nil => simp at h2
    | cons c f2 =>
      simp only [List.map_cons, List.cons.injEq] at h2
      obtain ⟨hc, hf2⟩ := h2
      rw [tolower_eq_dot] at hc
      subst hc hf
      have hno : '.' ∉ f2 := by
        intro hmem
        exact he' (hf2 ▸ dot_mem_map_tolower.mpr hmem)
      rw [AcceptFile_of_last_dot f1 f2 hno]
      simpa [hf2, tolower_eq_dot.mpr rfl] using he

/-! ## `SameFileName` -/

theorem strcmp_eq_zero_iff (a b : Str) : strcmp a b = 0 ↔ a = b := by
  induction a generalizing b with
  | nil => cases b <;> simp [strcmp]
  | cons x xs ih =>
    cases b with
    | nil => simp [strcmp]
    | cons y ys =>
      simp only [strcmp]
      by_cases hxy : x = y
      · simp [hxy, ih]
      · rw [if_neg hxy]
        split <;> simp [hxy]

theorem strcasecmp_eq_zero_iff (a b : Str) :
    strcasecmp a b = 0 ↔ a.map tolower = b.map tolower := by
  induction a generalizing b with
  | nil => cases b <;> simp [strcasecmp]
  | cons x xs ih =>
    cases b with
    | nil => simp [strcasecmp]
    | cons y ys =>
      simp only [strcasecmp]
      by_cases hxy : tolower x = tolower y
      · simp [hxy, ih]
      · rw [if_neg hxy]
        split <;> simp [hxy]

/-- C7. `SameFileName` is the reference comparison of the build's policy: with
`__linux__` defined it is byte-wise equality, and on the other targets that
have a `return` (GCC, Borland, Visual C++) it is equality after ASCII case
folding. -/
theorem SameFileName_policy (cfg : BuildConfig) (a b : Str) :
    (cfg.linux = true → SameFileName cfg a b = some (decide (a = b))) ∧
    (cfg.linux = false → (cfg.gnuc = true ∨ cfg.borlandc = true ∨ cfg.msc_ver = true) →
      SameFileName cfg a b = some (decide (a.map tolower = b.map tolower))) := by
  have h1 : (strcmp a b == 0) = decide (a = b) := by
    rw [Bool.eq_iff_iff]; simp [strcmp_eq_zero_iff]
  have h2 : (strcasecmp a b == 0) = decide (a.map tolower = b.map tolower) := by
    rw [Bool.eq_iff_iff]; simp [strcasecmp_eq_zero_iff]
  constructor
  · intro hl
    simp only [SameFileName, hl, if_true, h1]
  · intro hl hrest
    obtain ⟨l, g, bo, m⟩ := cfg
    simp only at hl hrest
    subst hl
    cases g <;> cases bo <;> cases m <;> simp [SameFileName, h2] at hrest ⊢

theorem SameFileName_policy_witness :
    SameFileName ⟨true, true, false, false⟩ "Foo.c".toList "foo.C".toList = some false ∧
    SameFileName ⟨false, false, false, true⟩ "Foo.c".toList "foo.C".toList = some true :=
  ⟨(SameFileName_policy ⟨true, true, false, false⟩ "Foo.c".toList "foo.C".toList).1 rfl,
   (SameFileName_policy ⟨false, false, false, true⟩ "Foo.c".toList "foo.C".toList).2 rfl
     (Or.inr (Or.inr rfl))⟩

/-! ## `RecursiveAddFiles` without recursion -/

namespace Posix

theorem globLoop_nonrecursive (AddFiles : List Str → Str → Option (List Str))
    (results filenames : List Str) :
    globLoop AddFiles false results filenames
      = some (filenames ++ results.filter isFileEntry) := by
  induction results generalizing filenames with
  | nil => simp [globLoop]
  | cons filename rest ih =>
    simp only [globLoop]
    by_cases h1 : filename = ['.'] ∨ filename = ['.', '.'] ∨ filename.length = 0
    · rw [if_pos h1, ih]
      have : isFileEntry filename = false := by
        rcases h1 with rfl | rfl | h
        · decide
        · decide
        · rw [List.length_eq_zero.mp h]; decide
      simp [List.filter_cons, this]
    · rw [if_neg h1]
      have h1' : filename ≠ ['.'] ∧ filename ≠ ['.', '.'] ∧ filename ≠ [] := by
        refine ⟨fun e => h1 (Or.inl e), fun e => h1 (Or.inr (Or.inl e)), fun e => ?_⟩
        exact h1 (Or.inr (Or.inr (by simp [e])))
      by_cases h2 : filename.getLast? ≠ some '/'
      · have : isFileEntry filename = true := by
          simp only [isFileEntry, decide_eq_true_eq]
          exact ⟨h1'.1, h1'.2.1, h1'.2.2, h2⟩
        rw [if_pos h2]
        simp [ih, List.filter_cons, this]
      · have : isFileEntry filename = false := by
          simp only [isFileEntry, decide_eq_false_iff_not]
          exact fun h => h2 h.2.2.2
        rw [if_neg h2]
        simp [ih, List.filter_cons, this]

/-- Without recursion the gcc backend appends exactly the enumerated pathnames
that name regular files, in enumeration order, whatever their extension. -/
theorem glob_scan_nonrecursive (glob : Str → List Str) (depth : Nat)
    (filenames : List Str) (path : Str) :
    RecursiveAddFiles glob (depth + 1) filenames path false
      = some (filenames ++ (glob (globPattern path)).filter isFileEntry) := by
  simp only [RecursiveAddFiles]
  exact globLoop_nonrecursive _ _ _

end Posix

namespace Windows

theorem findLoop_nonrecursive (AddFiles : List Str → Str → Option (List Str))
    (bdir : Str) (entries : List WIN32_FIND_DATA) (filenames : List Str) :
    findLoop AddFiles false bdir entries filenames
      = some (filenames ++ (entries.filter isKeptFile).map (fun ffd => bdir ++ ffd.cFileName)) := by
  induction entries generalizing filenames with
  | nil => simp [findLoop]
  | cons ffd rest ih =>
    simp only [findLoop]
    by_cases h1 : ffd.cFileName.head? = some '.' ∨ ffd.cFileName = []
    · rw [if_pos h1, ih]
      have : isKeptFile ffd = false := by
        simp only [isKeptFile, decide_eq_false_iff_not]
        rintro ⟨ha, hb, _⟩
        rcases h1 with h | h
        · exact ha h
        · exact hb h
      simp [List.filter_cons, this]
    · rw [if_neg h1]
      have h1' : ffd.cFileName.head? ≠ some '.' ∧ ffd.cFileName ≠ [] :=
        ⟨fun e => h1 (Or.inl e), fun e => h1 (Or.inr e)⟩
      by_cases h2 : ffd.dwFileAttributes &&& FILE_ATTRIBUTE_DIRECTORY = 0
      · have : isKeptFile ffd = true := by
          simp only [isKeptFile, decide_eq_true_eq]
          exact ⟨h1'.1, h1'.2, h2⟩
        rw [if_pos h2]
        simp [ih, List.filter_cons, this]
      · have : isKeptFile ffd = false := by
          simp only [isKeptFile, decide_eq_false_iff_not]
          exact fun h => h2 h.2.2
        rw [if_neg h2]
        simp [ih, List.filter_cons, this]

/-- Without recursion the Windows backend appends, for the entries found that
are no directories and whose name is not empty and does not begin with `.`,
the base directory followed by the name, in enumeration order, whatever the
extension; entries whose name begins with `.` are passed over. -/
theorem find_scan_nonrecursive (api : Api) (depth : Nat)
    (filenames : List Str) (path : Str) :
    RecursiveAddFiles api (depth + 1) filenames path false
      = match api.FindFirstFile (searchStrings api path).1 with
        | none => some filenames
        | some (ffd, more) =>
            some (filenames ++ ((ffd :: more).filter isKeptFile).map
              (fun e => (searchStrings api path).2 ++ e.cFileName)) := by
  simp only [RecursiveAddFiles]
  split
  · rfl
  · exact findLoop_nonrecursive _ _ _ _

end Windows

/-- C8. A regular file named `.hidden.txt`, given by the user without
recursion, is appended by the gcc backend and passed over by the Windows
backend, whose test of the first character of the name skips it. -/
theorem RecursiveAddFiles_dot_file_not_honoured :
    Windows.RecursiveAddFiles Windows.dotFileApi 1 [] ".hidden.txt".toList false = some [] ∧
    Posix.RecursiveAddFiles Posix.dotFileGlob 1 [] ".hidden.txt".toList false
      = some [".hidden.txt".toList] := by
  decide

/-! ## `RecursiveAddFiles` over a directory tree -/

/-- In front of a name without slash, a prefix that is empty or ends with a
slash does not change the verdict of `AcceptFile`. -/
theorem AcceptFile_under_dir (pre name : Str) (hpre : pre = [] ∨ pre.getLast? = some '/')
    (hname : '/' ∉ name) : AcceptFile (pre ++ name) = AcceptFile name := by
  rcases hpre with rfl | hpre
  · rfl
  · by_cases hdot : '.' ∈ name
    · obtain ⟨n1, n2, rfl, hn2⟩ := exists_last_dot hdot
      rw [Bool.eq_iff_iff, ← List.append_assoc, AcceptFile_of_last_dot _ _ hn2,
        AcceptFile_of_last_dot _ _ hn2]
    · rw [AcceptFile_of_no_dot hdot]
      by_cases hdotpre : '.' ∈ pre
      · obtain ⟨p1, p2, rfl, hp2⟩ := exists_last_dot hdotpre
        have hno : '.' ∉ p2 ++ name := by
          simp only [List.mem_append, not_or]
          exact ⟨hp2, hdot⟩
        have hslash : '/' ∈ p2 := by
          have h1 : '/' ∈ '.' :: p2 := by
            apply List.mem_of_getLast?_eq_some
            rw [← List.getLast?_append_cons p1 '.' p2]
            exact hpre
          rcases List.mem_cons.mp h1 with h | h
          · exact absurd h (by decide)
          · exact h
        have hmem : '/' ∈ List.map tolower ('.' :: (p2 ++ name)) := by
          refine List.mem_map.mpr ⟨'/', ?_, by decide⟩
          simp [hslash]
        cases h : AcceptFile (p1 ++ '.' :: p2 ++ name) with
        | false => rfl
        | true =>
          exfalso
          rw [List.append_assoc, List.cons_append, AcceptFile_of_last_dot _ _ hno] at h
          revert hmem
          generalize List.map tolower ('.' :: (p2 ++ name)) = e at h
          simp only [acceptedExtensions, List.mem_cons, List.mem_singleton, List.not_mem_nil,
            or_false] at h
          rcases h with rfl | rfl | rfl | rfl | rfl <;> decide
      · apply AcceptFile_of_no_dot
        simp only [List.mem_append, not_or]
        exact ⟨hdotpre, hdot⟩

namespace Posix

/-- The loop over the listing of a forest whose directories `glob` expands as
`GlobAgrees` says appends the accepted files that are not hidden. -/
theorem globLoop_forest (glob : Str → List Str) (F : Forest) :
    ∀ (depth : Nat) (pre : Str) (filenames : List Str),
      (pre = [] ∨ pre.getLast? = some '/') → (∀ c ∈ pre, Forest.isGlobSpecial c = false) →
      F.WellNamed → F.PlainDirs → F.GlobAgrees glob pre → F.depth ≤ depth →
      globLoop (fun fs p => RecursiveAddFiles glob depth fs p true) true (F.listing pre)
        filenames = some (filenames ++ F.visibleAcceptedFiles pre) := by
  induction F with
  | nil =>
    intro depth pre filenames _ _ _ _ _ _
    simp [Forest.listing, Forest.visibleAcceptedFiles, globLoop]
  | file name rest ih =>
    intro depth pre filenames hpre hplain hnames hdirs hglob hdepth
    obtain ⟨⟨hne, hslash, hdot, hdotdot⟩, hrest⟩ := hnames
    cases hhid : Forest.isHidden name with
    | true =>
      simp only [Forest.listing, Forest.visibleAcceptedFiles, hhid, if_true]
      exact ih depth pre filenames hpre hplain hrest hdirs hglob hdepth
    | false =>
      have hmem : pre ≠ [] → '/' ∈ pre ++ name := by
        intro hp
        rcases hpre with h | h
        · exact absurd h hp
        · exact List.mem_append_left _ (List.mem_of_getLast?_eq_some h)
      have h1 : ¬ (pre ++ name = ['.'] ∨ pre ++ name = ['.', '.'] ∨
          (pre ++ name).length = 0) := by
        by_cases hp : pre = []
        · subst hp
          simpa [hne] using ⟨hdot, hdotdot⟩
        · have := hmem hp
          rintro (h | h | h)
          · rw [h] at this; revert this; decide
          · rw [h] at this; revert this; decide
          · rw [List.length_eq_zero.mp h] at this; simp at this
      have h2 : (pre ++ name).getLast? ≠ some '/' := by
        rw [List.getLast?_append_of_ne_nil _ hne]
        intro h
        exact hslash (List.mem_of_getLast?_eq_some h)
      have haccept : AcceptFile (pre ++ name) = AcceptFile name :=
        AcceptFile_under_dir pre name hpre hslash
      simp only [Forest.listing, hhid, Bool.false_eq_true, if_false, globLoop, if_neg h1,
        if_pos h2, Bool.not_true, Bool.false_or, haccept, Forest.visibleAcceptedFiles]
      cases hacc : AcceptFile name with
      | false =>
        simp only [Bool.false_eq_true, if_false]
        exact ih depth pre filenames hpre hplain hrest hdirs hglob hdepth
      | true =>
        simp only [if_true]
        rw [ih depth pre _ hpre hplain hrest hdirs hglob hdepth]
        simp
  | dir name children rest ihc ihr =>
    intro depth pre filenames hpre hplain hnames hdirs hglob hdepth
    obtain ⟨-, hchildren, hrest⟩ := hnames
    obtain ⟨hname, hdc, hdr⟩ := hdirs
    obtain ⟨hlist, hgc, hgr⟩ := hglob
    simp only [Forest.depth] at hdepth
    cases hhid : Forest.isHidden name with
    | true =>
      simp only [Forest.listing, Forest.visibleAcceptedFiles, hhid, if_true]
      exact ihr depth pre filenames hpre hplain hrest hdr hgr (by omega)
    | false =>
      obtain ⟨d, rfl⟩ : ∃ d, depth = d + 1 := ⟨depth - 1, by omega⟩
      have hplain1 : ∀ c ∈ pre ++ name, Forest.isGlobSpecial c = false := by
        intro c hc
        rcases List.mem_append.mp hc with h | h
        · exact hplain c h
        · exact hname c h
      have hplain2 : ∀ c ∈ pre ++ name ++ ['/'], Forest.isGlobSpecial c = false := by
        intro c hc
        rcases List.mem_append.mp hc with h | h
        · exact hplain1 c h
        · simp only [List.mem_singleton] at h
          subst h
          decide
      have hlast : (pre ++ name ++ ['/']).getLast? = some '/' := List.getLast?_concat _
      have h1 : ¬ (pre ++ name ++ ['/'] = ['.'] ∨ pre ++ name ++ ['/'] = ['.', '.'] ∨
          (pre ++ name ++ ['/']).length = 0) := by
        rintro (h | h | h)
        · rw [h] at hlast; revert hlast; decide
        · rw [h] at hlast; revert hlast; decide
        · simp at h
      have h2 : ¬ (pre ++ name ++ ['/']).getLast? ≠ some '/' := fun h => h hlast
      have hpat : globPattern (pre ++ name ++ ['/']) = pre ++ name ++ ['/'] ++ ['*'] := by
        unfold globPattern
        rw [if_pos ⟨by simp, hlast⟩]
      have hcall : RecursiveAddFiles glob (d + 1) filenames (pre ++ name ++ ['/']) true
          = some (filenames ++ children.visibleAcceptedFiles (pre ++ name ++ ['/'])) := by
        simp only [RecursiveAddFiles, hpat, hlist hplain1]
        have hsub := ihc d (pre ++ name ++ ['/']) filenames (Or.inr hlast) hplain2 hchildren
          hdc hgc (by omega)
        cases d with
        | zero => exact hsub
        | succ d => exact hsub
      simp only [Forest.listing, hhid, Bool.false_eq_true, if_false, globLoop, if_neg h1,
        if_neg h2, if_true, hcall, Forest.visibleAcceptedFiles]
      rw [ihr (d + 1) pre _ hpre hplain hrest hdr hgr (by omega)]
      simp

end Posix

/-- On a forest without names that begin with `.`, the accepted files that are
not hidden are all the accepted files. -/
theorem Forest.visibleAcceptedFiles_of_noHidden (F : Forest) :
    ∀ pre : Str, F.NoHidden → F.visibleAcceptedFiles pre = F.acceptedFiles pre := by
  induction F with
  | nil => intro _ _; rfl
  | file name rest ih =>
    intro pre h
    simp only [Forest.visibleAcceptedFiles, Forest.acceptedFiles, h.1, Bool.false_eq_true,
      if_false, ih pre h.2]
  | dir name children rest ihc ihr =>
    intro pre h
    simp only [Forest.visibleAcceptedFiles, Forest.acceptedFiles, h.1, Bool.false_eq_true,
      if_false, ihc _ h.2.1, ihr pre h.2.2]

/-- C9 as stated fails: in the directory `hid/` with the regular files
`.hidden.cpp` and `v.cpp`, both with an accepted name, the pattern `hid/*`
does not match `.hidden.cpp`, and the recursive scan appends `hid/v.cpp`
only. -/
theorem RecursiveAddFiles_misses_hidden_file :
    hidTree.WellNamed ∧ hidTree.PlainDirs ∧
    hidGlob (Posix.globPattern "hid/".toList) = hidTree.listing "hid/".toList ∧
    hidTree.GlobAgrees hidGlob "hid/".toList ∧
    hidTree.acceptedFiles "hid/".toList = ["hid/.hidden.cpp".toList, "hid/v.cpp".toList] ∧
    Posix.RecursiveAddFiles hidGlob 2 [] "hid/".toList true = some ["hid/v.cpp".toList] ∧
    Posix.RecursiveAddFiles hidGlob 2 [] "hid/".toList true
      ≠ some ([] ++ hidTree.acceptedFiles "hid/".toList) := by
  refine ⟨⟨⟨by decide, by decide, by decide, by decide⟩,
      ⟨by decide, by decide, by decide, by decide⟩, trivial⟩, trivial, rfl, trivial,
    by decide, by decide, by decide⟩

/-- C9. With `recursive = true`, on a directory tree whose directory names hold
no pattern character, the gcc backend appends exactly the regular files of the
tree whose name `AcceptFile` accepts and that are reached without going through
a name that begins with `.` (depth first, in enumeration order): files with
another extension and directories are not appended. -/
theorem RecursiveAddFiles_recursive_tree (glob : Str → List Str) (F : Forest)
    (pre path : Str) (filenames : List Str) (depth : Nat)
    (hpre : pre = [] ∨ pre.getLast? = some '/')
    (hplain : ∀ c ∈ pre, Forest.isGlobSpecial c = false)
    (hnames : F.WellNamed) (hdirs : F.PlainDirs)
    (hroot : glob (Posix.globPattern path) = F.listing pre)
    (hglob : F.GlobAgrees glob pre) (hdepth : F.depth < depth) :
    Posix.RecursiveAddFiles glob depth filenames path true
      = some (filenames ++ F.visibleAcceptedFiles pre) := by
  obtain ⟨d, rfl⟩ : ∃ d, depth = d + 1 := ⟨depth - 1, by omega⟩
  simp only [Posix.RecursiveAddFiles, hroot]
  exact Posix.globLoop_forest glob F d pre filenames hpre hplain hnames hdirs hglob (by omega)

theorem RecursiveAddFiles_recursive_tree_witness :
    Posix.RecursiveAddFiles srcGlob 2 [] "src/".toList true
      = some ["src/a.cpp".toList, "src/sub/b.cc".toList] :=
  RecursiveAddFiles_recursive_tree srcGlob srcTree "src/".toList "src/".toList [] 2
    (Or.inr rfl) (by decide)
    ⟨⟨by decide, by decide, by decide, by decide⟩, ⟨by decide, by decide, by decide, by decide⟩,
      ⟨by decide, by decide, by decide, by decide⟩,
      ⟨⟨by decide, by decide, by decide, by decide⟩, trivial⟩, trivial⟩
    ⟨by decide, trivial, trivial⟩
    rfl ⟨fun _ => rfl, trivial, trivial⟩ (by decide)

/-- A directory name with a pattern character is pasted into the next pattern
as it is (line 147): the content of `src/a[b]/` is asked for with the pattern
`src/a[b]/*`, which does not name that directory, and `src/a[b]/x.cpp` is not
appended. -/
theorem RecursiveAddFiles_misses_bracket_directory :
    bracketTree.WellNamed ∧
    bracketGlob (Posix.globPattern "src/".toList) = bracketTree.listing "src/".toList ∧
    bracketTree.GlobAgrees bracketGlob "src/".toList ∧
    bracketTree.visibleAcceptedFiles "src/".toList = ["src/a[b]/x.cpp".toList] ∧
    Posix.RecursiveAddFiles bracketGlob 3 [] "src/".toList true = some [] := by
  refine ⟨⟨⟨by decide, by decide, by decide, by decide⟩,
      ⟨⟨by decide, by decide, by decide, by decide⟩, trivial⟩, trivial⟩, rfl,
    ⟨fun h => ?_, trivial, trivial⟩, by decide, by decide⟩
  exact absurd (h '[' (by decide)) (by decide)

/-! ## `RecursiveAddFiles` only appends -/

theorem Posix.globLoop_extends (AddFiles : List Str → Str → Option (List Str))
    (recursive : Bool)
    (hAdd : ∀ fs p out, AddFiles fs p = some out → fs <+: out)
    (results filenames out : List Str)
    (h : Posix.globLoop AddFiles recursive results filenames = some out) :
    filenames <+: out := by
  induction results generalizing filenames with
  | nil =>
    simp only [Posix.globLoop, Option.some.injEq] at h
    exact h ▸ List.prefix_refl _
  | cons filename rest ih =>
    simp only [Posix.globLoop] at h
    split at h
    · exact ih _ h
    · split at h
      · split at h
        · exact (List.prefix_append _ _).trans (ih _ h)
        · exact ih _ h
      · split at h
        · split at h
          · cases h
          · rename_i fs' hcall
            exact (hAdd _ _ _ hcall).trans (ih _ h)
        · exact ih _ h

theorem Posix.glob_scan_extends (glob : Str → List Str) (depth : Nat)
    (filenames : List Str) (path : Str) (recursive : Bool) (out : List Str)
    (h : Posix.RecursiveAddFiles glob depth filenames path recursive = some out) :
    filenames <+: out := by
  induction depth generalizing filenames path out with
  | zero => simp [Posix.RecursiveAddFiles] at h
  | succ d ih =>
    simp only [Posix.RecursiveAddFiles] at h
    exact Posix.globLoop_extends _ recursive (fun fs p o ho => ih fs p o ho) _ _ _ h

theorem Windows.findLoop_extends (AddFiles : List Str → Str → Option (List Str))
    (recursive : Bool) (bdir : Str)
    (hAdd : ∀ fs p out, AddFiles fs p = some out → fs <+: out)
    (entries : List Windows.WIN32_FIND_DATA) (filenames out : List Str)
    (h : Windows.findLoop AddFiles recursive bdir entries filenames = some out) :
    filenames <+: out := by
  induction entries generalizing filenames with
  | nil =>
    simp only [Windows.findLoop, Option.some.injEq] at h
    exact h ▸ List.prefix_refl _
  | cons ffd rest ih =>
    simp only [Windows.findLoop] at h
    split at h
    · exact ih _ h
    · split at h
      · split at h
        · exact (List.prefix_append _ _).trans (ih _ h)
        · exact ih _ h
      · split at h
        · split at h
          · cases h
          · rename_i fs' hcall
            exact (hAdd _ _ _ hcall).trans (ih _ h)
        · exact ih _ h

theorem Windows.find_scan_extends (api : Windows.Api) (depth : Nat)
    (filenames : List Str) (path : Str) (recursive : Bool) (out : List Str)
    (h : Windows.RecursiveAddFiles api depth filenames path recursive = some out) :
    filenames <+: out := by
  induction depth generalizing filenames path out with
  | zero => simp [Windows.RecursiveAddFiles] at h
  | succ d ih =>
    simp only [Windows.RecursiveAddFiles] at h
    split at h
    · simp only [Option.some.injEq] at h
      exact h ▸ List.prefix_refl _
    · exact Windows.findLoop_extends _ recursive _ (fun fs p o ho => ih fs p o ho) _ _ _ h

/-- C10. `RecursiveAddFiles` only appends to the caller's collection: in both
backends, whatever the enumeration primitives yield and for either value of
the recursion flag, the collection left by a call that returns has the initial
collection as a prefix. -/
theorem RecursiveAddFiles_appends_only (glob : Str → List Str) (api : Windows.Api)
    (depth : Nat) (filenames : List Str) (path : Str) (recursive : Bool) :
    (∀ out, Posix.RecursiveAddFiles glob depth filenames path recursive = some out →
      filenames <+: out) ∧
    (∀ out, Windows.RecursiveAddFiles api depth filenames path recursive = some out →
      filenames <+: out) :=
  ⟨fun out h => Posix.glob_scan_extends glob depth filenames path recursive out h,
   fun out h => Windows.find_scan_extends api depth filenames path recursive out h⟩

theorem RecursiveAddFiles_appends_only_witness :
    ["old.c".toList] <+: ["old.c".toList, "src/a.cpp".toList, "src/sub/b.cc".toList] ∧
    ["old.c".toList] <+: ["old.c".toList, "src\\a.cpp".toList, "src\\sub\\b.cc".toList] :=
  ⟨(RecursiveAddFiles_appends_only srcGlob srcApi 2 ["old.c".toList] "src/".toList true).1
      _ (by decide),
   (RecursiveAddFiles_appends_only srcGlob srcApi 2 ["old.c".toList] "src/".toList true).2
      _ (by decide)⟩

/-! ## The split phase is lossless -/

theorem joinParts_append (l1 l2 : List Str) :
    joinParts (l1 ++ l2) = joinParts l1 ++ joinParts l2 := by
  induction l1 with
  | nil => rfl
  | cons s rest ih => simp [joinParts, ih]

theorem joinParts_splitLoop (cs sub : Str) (acc : List Str) :
    joinParts (splitLoop cs sub acc) = joinParts acc ++ sub ++ cs := by
  induction cs generalizing sub acc with
  | nil =>
    simp only [splitLoop]
    split
    · simp [joinParts_append, joinParts]
    · rename_i h
      have : sub = [] := by
        cases sub with
        | nil => rfl
        | cons x xs => exact absurd (by simp) h
      simp [this]
  | cons c rest ih =>
    simp only [splitLoop]
    split
    · split
      · rw [ih]; simp [joinParts_append, joinParts]
      · rename_i h
        have : sub = [] := by
          cases sub with
          | nil => rfl
          | cons x xs => exact absurd (by simp) h
        rw [ih]; simp [joinParts_append, joinParts, this]
    · rw [ih]; simp

theorem joinParts_splitPath (p : Str) : joinParts (splitPath p) = p := by
  unfold splitPath
  rw [joinParts_splitLoop]
  simp [joinParts]

theorem IsSepSeg.ne_nil {s : Str} (h : IsSepSeg s) : s ≠ [] := by
  rcases h with rfl | rfl <;> simp

theorem Segmented.ne_nil_of_mem {b : Bool} {l : List Str} (h : Segmented b l) :
    ∀ s ∈ l, s ≠ [] := by
  induction l generalizing b with
  | nil => simp
  | cons x rest ih =>
    intro s hs
    rcases List.mem_cons.mp hs with rfl | hs
    · rcases h with ⟨hx, _⟩ | ⟨_, hx, _⟩
      · exact hx.ne_nil
      · exact hx.1
    · rcases h with ⟨_, hrest⟩ | ⟨_, _, hrest⟩
      · exact ih hrest s hs
      · exact ih hrest s hs

/-- C16. The split phase of `simplifyPath` is lossless: the segments it
produces, concatenated in order, are the path itself; none of them is empty;
and they are single separators and separator-free runs, no run following a
run. -/
theorem splitPath_lossless (p : Str) :
    joinParts (splitPath p) = p ∧ (∀ s ∈ splitPath p, s ≠ []) ∧
      Segmented false (splitPath p) :=
  ⟨joinParts_splitPath p, (splitPath_segmented p).ne_nil_of_mem, splitPath_segmented p⟩

/-! ## Paths without separator -/

/-- C13. A path that contains neither `/` nor `\` is returned unchanged by
`simplifyPath`; this includes the empty path, `.` and `..`. -/
theorem simplifyPath_no_separator (p : Str) (hp : ∀ c ∈ p, c ≠ '/' ∧ c ≠ '\\') :
    simplifyPath p = p := by
  have hquiet : ∀ (l : List Str), l.length ≤ 1 → ∀ j, 0 ≤ j → Quiet j l := by
    intro l hl j _
    cases j with
    | zero => exact quiet_zero l
    | succ j => exact quiet_of_length_le (by omega)
  cases p with
  | nil =>
    have hsplit : splitPath [] = [] := rfl
    simp only [simplifyPath, simplifiedParts, hsplit]
    rw [simplifyLoop_of_quiet _ 0 [] (hquiet [] (by simp))]
    rfl
  | cons c cs =>
    have hseg : Segmented false [c :: cs] := .cons_name ⟨by simp, hp⟩ .nil
    have hsplit : splitPath (c :: cs) = [c :: cs] := by
      have h := splitPath_joinParts hseg
      simpa [joinParts] using h
    simp only [simplifyPath, simplifiedParts, hsplit]
    rw [simplifyLoop_of_quiet _ 0 [c :: cs] (hquiet [c :: cs] (by simp))]
    simp [joinParts]

theorem simplifyPath_no_separator_witness :
    simplifyPath "".toList = "".toList ∧ simplifyPath ".".toList = ".".toList ∧
    simplifyPath "..".toList = "..".toList ∧ simplifyPath "file.cpp".toList = "file.cpp".toList :=
  ⟨simplifyPath_no_separator "".toList (by decide),
   simplifyPath_no_separator ".".toList (by decide),
   simplifyPath_no_separator "..".toList (by decide),
   simplifyPath_no_separator "file.cpp".toList (by decide)⟩

/-! ## A parent reference after the first name -/

/-- For plain names `a` and `b`, the path `a/../b` is simplified to `/b`: the
rule erases `a`, the separator and `..`, and the separator behind `..` stays. -/
theorem simplifyPath_parent_of_first (a b : Str) (ha : IsPlainName a) (hb : IsPlainName b) :
    simplifyPath (a ++ ['/', '.', '.', '/'] ++ b) = '/' :: b := by
  have hjoin : a ++ ['/', '.', '.', '/'] ++ b = joinParts [a, ['/'], ['.', '.'], ['/'], b] := by
    simp [joinParts]
  have hseg : Segmented false [a, ['/'], ['.', '.'], ['/'], b] :=
    .cons_name ha.1 (.cons_slash (.cons_name isNameSeg_dotdot (.cons_slash
      (.cons_name hb.1 .nil))))
  have a1 := ha.1.ne_slash
  have a2 := ha.2.1
  have a3 := ha.2.2
  have b1 := hb.1.ne_slash
  have b2 := hb.2.1
  have b3 := hb.2.2
  rw [simplifyPath, simplifiedParts_eq_runLoop, hjoin, splitPath_joinParts hseg]
  iterate 4 (rw [runLoop_step (by simp)]; simp [loopBody, a1, a2, a3, b1, b2, b3])
  rw [runLoop_done (by simp)]
  simp [joinParts]

/-- C14. On `a/../b` the code does not return `b`: it returns `/b`, keeping the
separator that followed the parent reference. -/
theorem simplifyPath_parent_of_first_keeps_slash :
    simplifyPath "a/../b".toList = "/b".toList ∧
    simplifyPath "a/../b".toList ≠ "b".toList := by
  decide

/-! ## What the rewrite loop leaves -/

/-- C17. The rewrite loop stops only when no rule applies: the segment
sequence of `simplifyPath p` (which is the sequence the loop ended on) has no
`.` at an index above 0, no `..` at an index above 1, and no two neighbouring
`/` segments. -/
theorem simplifyPath_segments_stable (p : Str) :
    splitPath (simplifyPath p) = simplifiedParts p ∧
    ∀ i : Nat,
      (0 < i → (splitPath (simplifyPath p))[i]? ≠ some ['.']) ∧
      (1 < i → (splitPath (simplifyPath p))[i]? ≠ some ['.', '.']) ∧
      ¬ ((splitPath (simplifyPath p))[i]? = some ['/'] ∧
          (splitPath (simplifyPath p))[i + 1]? = some ['/']) := by
  have hsplit : splitPath (simplifyPath p) = simplifiedParts p :=
    splitPath_joinParts (simplifiedParts_segmented p)
  refine ⟨hsplit, fun i => ?_⟩
  rw [hsplit]
  have hst := simplifiedParts_stable p
  refine ⟨fun hi h => (hst i).2.1 ⟨hi, h⟩, fun hi h => (hst i).1 ⟨h, hi⟩, fun h => ?_⟩
  exact (hst (i + 1)).2.2 ⟨h.2, by omega, by simpa using h.1⟩

/-! ## The rewrite loop only deletes -/

theorem joinParts_sublist {l1 l2 : List Str} (h : l1.Sublist l2) :
    (joinParts l1).Sublist (joinParts l2) := by
  induction h with
  | slnil => exact List.Sublist.refl _
  | cons a _ ih => exact ih.trans (List.sublist_append_right _ _)
  | cons₂ a _ ih => exact List.Sublist.append (List.Sublist.refl _) ih

theorem loopBody_sublist (i : Nat) (parts : List Str) :
    (loopBody i parts).2.Sublist parts := by
  unfold loopBody
  split
  · exact ((List.eraseIdx_sublist _ _).trans (List.eraseIdx_sublist _ _)).trans
      (List.eraseIdx_sublist _ _)
  · split
    · exact List.eraseIdx_sublist _ _
    · split
      · exact List.eraseIdx_sublist _ _
      · exact List.Sublist.refl _

theorem simplifyLoop_sublist (fuel i : Nat) (parts : List Str) :
    (simplifyLoop fuel i parts).Sublist parts := by
  induction fuel generalizing i parts with
  | zero => exact List.Sublist.refl _
  | succ fuel ih =>
    simp only [simplifyLoop]
    split
    · exact (ih _ _).trans (loopBody_sublist i parts)
    · exact List.Sublist.refl _

/-- C19. `simplifyPath` only deletes: its result is a subsequence of the
characters of the path, hence not longer; every iteration of the rewrite loop
in which a rule fires leaves fewer segments; and the loop ends on every input:
with `loopFuel` iterations or more it gives one and the same result, on which
no rule applies. -/
theorem simplifyPath_only_deletes (p : Str) :
    (simplifyPath p).Sublist p ∧ (simplifyPath p).length ≤ p.length ∧
    (∀ (i : Nat) (parts : List Str), i < parts.length → ¬ Quiet i parts →
      (loopBody i parts).2.length < parts.length) ∧
    (∀ fuel : Nat, loopFuel 0 (splitPath p) ≤ fuel →
      simplifyLoop fuel 0 (splitPath p) = simplifiedParts p ∧
        Stable (simplifyLoop fuel 0 (splitPath p))) := by
  have hsub : (simplifyPath p).Sublist p := by
    have h := joinParts_sublist (simplifyLoop_sublist (loopFuel 0 (splitPath p)) 0 (splitPath p))
    rw [joinParts_splitPath] at h
    exact h
  refine ⟨hsub, hsub.length_le, fun i parts hi hq => (loopBody_of_not_quiet hi hq).2,
    fun fuel hfuel => ⟨?_, ?_⟩⟩
  · exact simplifyLoop_fuel_irrelevant _ _ _ _ hfuel (le_refl _)
  · exact simplifyLoop_stable _ 0 _ hfuel (fun _ hj => absurd hj (Nat.not_lt_zero _))

theorem simplifyPath_only_deletes_witness :
    (simplifyPath "a/b/../c".toList).Sublist "a/b/../c".toList ∧
    simplifyLoop 100 0 (splitPath "a/b/../c".toList) = simplifiedParts "a/b/../c".toList :=
  ⟨(simplifyPath_only_deletes "a/b/../c".toList).1,
   ((simplifyPath_only_deletes "a/b/../c".toList).2.2.2 100 (by decide)).1⟩

/-! ## Doubled separators -/

theorem head?_joinParts_cons {s : Str} (rest : List Str) (hs : s ≠ []) :
    (joinParts (s :: rest)).head? = s.head? := by
  cases s with
  | nil => exact absurd rfl hs
  | cons c cs => rfl

theorem noDoubled_of_no_slash {s : Str} (hno : ∀ c ∈ s, c ≠ '/') :
    List.Chain' (fun c d => ¬ ((fun c => c = '/') c ∧ (fun c => c = '/') d)) s := by
  induction s with
  | nil => exact List.chain'_nil
  | cons c cs ihs =>
    refine (ihs (fun d hd => hno d (by simp [hd]))).cons' ?_
    intro y _ h
    exact hno c (by simp) h.1

/-- The concatenation of a well-shaped segment sequence without two
neighbouring `/` segments has no two neighbouring `/` characters. -/
theorem noDoubled_slash_joinParts {b : Bool} {parts : List Str} (hseg : Segmented b parts)
    (hadj : ∀ i : Nat, ¬ (parts[i]? = some ['/'] ∧ parts[i + 1]? = some ['/'])) :
    NoDoubled (fun c => c = '/') (joinParts parts) := by
  induction parts generalizing b with
  | nil => exact List.chain'_nil
  | cons s rest ih =>
    have hrest : Segmented false rest := by
      rcases hseg with ⟨_, h⟩ | ⟨_, _, h⟩
      · exact h
      · exact h.weaken
    have hadj' : ∀ i : Nat, ¬ (rest[i]? = some ['/'] ∧ rest[i + 1]? = some ['/']) := by
      intro i h
      exact hadj (i + 1) (by simpa using h)
    have ihr := ih hrest hadj'
    show NoDoubled (fun c => c = '/') (s ++ joinParts rest)
    unfold NoDoubled at ihr ⊢
    rw [List.chain'_append]
    by_cases hslash : s = ['/']
    · subst hslash
      refine ⟨List.chain'_singleton _, ihr, ?_⟩
      intro x _ y hy
      rintro ⟨-, rfl⟩
      cases rest with
      | nil => simp [joinParts] at hy
      | cons r rest' =>
        have hr : r ≠ ['/'] := by
          intro hr
          exact hadj 0 (by simp [hr])
        have hrne : r ≠ [] := hrest.ne_nil_of_mem r (by simp)
        rw [head?_joinParts_cons _ hrne] at hy
        rcases hrest with ⟨hsep, _⟩ | ⟨_, hname, _⟩
        · rcases hsep with rfl | rfl
          · exact hr rfl
          · simp at hy
        · have hmem : '/' ∈ r := List.mem_of_mem_head? hy
          exact (hname.2 '/' hmem).1 rfl
    · have hno : ∀ c ∈ s, c ≠ '/' := by
        rcases hseg with ⟨hsep, _⟩ | ⟨_, hname, _⟩
        · rcases hsep with rfl | rfl
          · exact absurd rfl hslash
          · intro c hc
            simp only [List.mem_singleton] at hc
            subst hc
            decide
        · exact fun c hc => (hname.2 c hc).1
      refine ⟨?_, ihr, ?_⟩
      · exact noDoubled_of_no_slash hno
      · intro x hx y _ h
        exact hno x (List.mem_of_getLast?_eq_some hx) h.1

/-- C15. Doubled backslashes are not collapsed: the split treats `\` as a
separator and the `.` rule erases the marker between two of them, but the test
for a doubled separator compares with `/` only, so `a\.\b` is simplified to
`a\\b`; a doubled backslash in the input, as in `a\\b`, is kept as well. -/
theorem simplifyPath_doubled_backslash_kept :
    simplifyPath "a\\.\\b".toList = "a\\\\b".toList ∧
    ¬ NoDoubled (fun c => c = '/' ∨ c = '\\') (simplifyPath "a\\.\\b".toList) ∧
    ¬ NoDoubled (fun c => c = '/' ∨ c = '\\') (simplifyPath "a\\\\b".toList) := by
  have h1 : simplifyPath "a\\.\\b".toList = ['a', '\\', '\\', 'b'] := by decide
  have h2 : simplifyPath "a\\\\b".toList = ['a', '\\', '\\', 'b'] := by decide
  refine ⟨h1, ?_, ?_⟩
  · rw [h1]; simp [NoDoubled]
  · rw [h2]; simp [NoDoubled]

/-- Doubled forward slashes are collapsed: for every path, no two neighbouring
characters of `simplifyPath p` are both `/`. -/
theorem simplifyPath_no_doubled_slash (p : Str) :
    NoDoubled (fun c => c = '/') (simplifyPath p) := by
  refine noDoubled_slash_joinParts (simplifiedParts_segmented p) (fun i h => ?_)
  exact (simplifiedParts_stable p (i + 1)).2.2 ⟨h.2, by omega, by simpa using h.1⟩

/-! ## Paths that cannot be opened -/

/-- C11. A scan whose enumeration yields nothing (`glob` reports no pathname,
`FindFirstFile` returns `INVALID_HANDLE_VALUE`) returns with the collection
unchanged, in both backends and for either value of the recursion flag. -/
theorem RecursiveAddFiles_unreadable_path (glob : Str → List Str) (api : Windows.Api)
    (depth : Nat) (filenames : List Str) (path : Str) (recursive : Bool) :
    (glob (Posix.globPattern path) = [] →
      Posix.RecursiveAddFiles glob (depth + 1) filenames path recursive = some filenames) ∧
    (api.FindFirstFile (Windows.searchStrings api path).1 = none →
      Windows.RecursiveAddFiles api (depth + 1) filenames path recursive = some filenames) := by
  constructor
  · intro h
    simp only [Posix.RecursiveAddFiles, h, Posix.globLoop]
  · intro h
    simp only [Windows.RecursiveAddFiles, h]

theorem RecursiveAddFiles_unreadable_path_witness :
    Posix.RecursiveAddFiles srcGlob 1 [] "missing/".toList true = some [] ∧
    Windows.RecursiveAddFiles srcApi 1 [] "missing/".toList true = some [] ∧
    Posix.RecursiveAddFiles srcGlob 1 ["old.c".toList] "missing".toList false
      = some ["old.c".toList] :=
  ⟨(RecursiveAddFiles_unreadable_path srcGlob srcApi 0 [] "missing/".toList true).1 (by decide),
   (RecursiveAddFiles_unreadable_path srcGlob srcApi 0 [] "missing/".toList true).2 rfl,
   (RecursiveAddFiles_unreadable_path srcGlob srcApi 0 ["old.c".toList] "missing".toList
      false).1 (by decide)⟩

/-! ## Separator styles in the Windows backend -/

theorem Windows.cleanPath_cleanPath (path : Str) :
    Windows.cleanPath (Windows.cleanPath path) = Windows.cleanPath path := by
  unfold Windows.cleanPath
  rw [List.map_map]
  apply List.map_congr_left
  intro c _
  by_cases hc : c = '/'
  · subst hc; decide
  · simp [hc]

/-- When the converted path is a directory, the Windows backend does the same
for a path and for the path with every `/` replaced by `\`. -/
theorem Windows.find_scan_directory_either_style (api : Windows.Api) (depth : Nat)
    (filenames : List Str) (path : Str) (recursive : Bool)
    (hdir : api.PathIsDirectory (Windows.cleanPath path) = true) :
    Windows.RecursiveAddFiles api depth filenames path recursive
      = Windows.RecursiveAddFiles api depth filenames (Windows.cleanPath path) recursive := by
  have hs : Windows.searchStrings api (Windows.cleanPath path)
      = Windows.searchStrings api path := by
    simp only [Windows.searchStrings, Windows.cleanPath_cleanPath, hdir, if_true]
  cases depth with
  | zero => rfl
  | succ d => simp only [Windows.RecursiveAddFiles, hs]

/-- C12. For a regular file the Windows backend depends on the separator
style: given `dir/file.cpp` it appends `file.cpp` without its directory, given
`dir\file.cpp` it appends `dir\file.cpp`; the base directory is cut at the
last backslash of the path as passed, not of the converted path. -/
theorem RecursiveAddFiles_slash_path_loses_directory :
    Windows.RecursiveAddFiles Windows.fileInDirApi 1 [] "dir/file.cpp".toList false
      = some ["file.cpp".toList] ∧
    Windows.RecursiveAddFiles Windows.fileInDirApi 1 [] "dir\\file.cpp".toList false
      = some ["dir\\file.cpp".toList] := by
  decide

/-! ## Entries skipped by the two backends -/

/-- C18. The backends do not skip the same entries: a regular file named
`.hidden.cpp` is passed over by the Windows backend, whose test looks at the
first character of the name only, and appended by the gcc backend. -/
theorem RecursiveAddFiles_backends_differ_on_dot_file :
    Windows.RecursiveAddFiles Windows.hiddenCppApi 1 [] ".hidden.cpp".toList true = some [] ∧
    Posix.RecursiveAddFiles Posix.hiddenCppGlob 1 [] ".hidden.cpp".toList true
      = some [".hidden.cpp".toList] := by
  decide

end FileLister
